import Mathlib

/-!
Verification of the cooperative single-threaded executor/reactor core of
rust-async-bench against its specification.

The development shallowly embeds the scheduler of `src/executor.rs` (the
`arg` module: `Tasks`, `ArgExecutor`, `ArgSpawner`), the wake-handle
reference-count discipline of `src/future.rs` (`Executor::exec` with
`SharedWaker`), the reactor of `src/future.rs` (`FakeReactor`,
`RegistrationHandle`), and the reference-counted waker of the `boxrc`
module of `src/executor.rs` (`TaskWaker`).

Machine integers (`usize`) are modelled as `Nat`; the programs never rely
on wraparound.  Fallible operations (Rust `Result`, panics, failed
assertions) are modelled with `Except`.  `RefCell` state is modelled by
explicit state passing.  The `slab::Slab` container is an external crate;
it is modelled by its documented contract: fixed-capacity slot storage,
`insert` into a vacant slot returning its key, `remove` freeing the slot,
keys of live entries stable.  Slots are a `List (Option τ)` whose length
is the capacity; a vacant key is a `none` index.

Every task additionally carries a ghost `serial` number (and the scheduler
a ghost `counter`), and the interpreters emit a ghost event trace; these
are pure instrumentation used to state ordering properties and do not
influence any modelled behaviour.
-/

set_option maxRecDepth 4000

/-- Fatal faults of the modelled code: a Rust panic or failed assertion. -/
inductive Fault where
  /-- indexing a vacant slab slot (`data.nodes[task_id]` on a free slot). -/
  | missingTask : Fault
  /-- reading an uninitialised future slot. -/
  | missingFut : Fault
  /-- a wake-handle reference-count assertion at task removal failed. -/
  | refAssert : Fault
  /-- a wake-handle reference count was decremented below its floor. -/
  | underflow : Fault
deriving DecidableEq, Repr

/-- Ghost trace events emitted by the interpreters: a task (identified by
its ghost serial) was spawned by a parent (`none` for a top-level spawn),
or a task's resume completed, reporting done or suspended. -/
inductive Ev where
  | spawned (parent : Option Nat) (child : Nat) : Ev
  | resumed (serial : Nat) (done : Bool) : Ev
deriving DecidableEq, Repr

/-- Continuation language: what one of the opaque futures driven by the
scheduler may do.  A resume step evaluates effects (spawning a sibling,
invoking a wake handle) until the continuation reports `Poll::Ready`
(`ret`) or `Poll::Pending` (`pend`, carrying the continuation for the
next resume). -/
inductive Fut where
  | ret : Fut
  | pend (rest : Fut) : Fut
  | spawnThen (child : Fut) (rest : Fut) : Fut
  | wakeThen (target : Nat) (rest : Fut) : Fut
deriving DecidableEq, Repr

/-- `Task` of `src/executor.rs` (arg module): the embedded wake handle's
reference count (`EmbedWaker.refs`, starting at 1) and the `awake` flag,
plus the ghost serial. -/
structure ATask where
  serial : Nat
  refs : Nat
  awake : Bool
deriving DecidableEq, Repr

/-- Slab lookup: `getD` yields `none` both for a vacant slot and for an
out-of-range key. -/
def slabGet {τ : Type} (l : List (Option τ)) (k : Nat) : Option τ :=
  l.getD k none

/-- Number of live slab entries (`Slab::len`). -/
def slabLen {τ : Type} (l : List (Option τ)) : Nat :=
  l.countP (fun x => x.isSome)

/-- Key of the first vacant slot (`Slab::vacant_entry().key()`). -/
def vacantKey {τ : Type} (l : List (Option τ)) : Nat :=
  l.findIdx (fun x => x.isNone)

/-- `TasksData` of `src/executor.rs` (arg module): the task slab, the
ready list and the parallel future-storage vector, plus the ghost serial
counter.  The ready list (`crate::list`) is not present under `src/`.
Modelled from the spec: the Ready List is an intrusive FIFO queue of task
identities with `push_back`, O(1) `remove` of an identity, and
`pop_front`; a task identity appears at most once, so it is represented
as the list of queued identities, `remove` dropping the identity and
`push_back` appending it. -/
structure TasksData where
  nodes : List (Option ATask)
  next : List Nat
  futs : List (Option Fut)
  counter : Nat
deriving DecidableEq, Repr

/-- `Tasks::new(tasks_max)`: empty slab of capacity `tasks_max`, empty
ready list, uninitialised future storage of length `tasks_max`. -/
def TasksData.init (tasks_max : Nat) : TasksData :=
  { nodes := List.replicate tasks_max none
    next := []
    futs := List.replicate tasks_max none
    counter := 0 }

/-- `Tasks::is_empty`. -/
def TasksData.isEmpty (d : TasksData) : Bool :=
  slabLen d.nodes == 0

/-- `Tasks::add` of `src/executor.rs` (arg module): fail with `Err(())`
when the slab is full, otherwise insert a task with a fresh wake handle
(`refs = 1`) and `awake = true` into a vacant slot, push its key to the
back of the ready list, and write the future into the parallel storage.
Returns the result, the new state, and the ghost spawn event. -/
def TasksData.add (d : TasksData) (parent : Option Nat) (f : Fut) :
    Except Unit Nat × TasksData × List Ev :=
  if slabLen d.nodes = d.nodes.length then
    (.error (), d, [])
  else
    let key := vacantKey d.nodes
    let t : ATask := { serial := d.counter, refs := 1, awake := true }
    (.ok key,
     { nodes := d.nodes.set key (some t)
       next := d.next ++ [key]
       futs := d.futs.set key (some f)
       counter := d.counter + 1 },
     [.spawned parent d.counter])

/-- `Tasks::wake` of `src/executor.rs` (arg module): index the slab
(panicking on a vacant slot); if the task is not awake, set its awake
flag, remove its identity from the ready list and push it to the back;
otherwise do nothing. -/
def TasksData.wake (d : TasksData) (k : Nat) : Except Fault TasksData :=
  match slabGet d.nodes k with
  | none => .error .missingTask
  | some t =>
    if t.awake then .ok d
    else
      .ok { d with
              nodes := d.nodes.set k (some { t with awake := true })
              next := d.next.filter (fun x => x ≠ k) ++ [k] }

/-- One resume of a continuation: evaluate its effects against the
scheduler state (spawns go through `ArgExecutor::spawn`, i.e.
`Tasks::add`, a continuation ignoring a failed spawn; wakes go through
`Tasks::wake`), ending with `none` for `Poll::Ready` or `some rest` for
`Poll::Pending`.  `s` is the ghost serial of the resumed task. -/
def runFut : Fut → Nat → TasksData → Except Fault (Option Fut × TasksData × List Ev)
  | .ret, _, d => .ok (none, d, [])
  | .pend rest, _, d => .ok (some rest, d, [])
  | .spawnThen child rest, s, d =>
    let r := d.add (some s) child
    (runFut rest s r.2.1).map (fun out => (out.1, out.2.1, r.2.2 ++ out.2.2))
  | .wakeThen j rest, s, d =>
    match d.wake j with
    | .error e => .error e
    | .ok d' => runFut rest s d'

/-- `Tasks::process_next` of `src/executor.rs` (arg module), with fuel
bounding the number of loop iterations.  Each iteration pops the front of
the ready list, clears the task's awake flag, resumes its future exactly
once, and on completion asserts that the wake handle's reference count is
exactly 1, drops the future in place and removes the task from slab and
list; on suspension the mutated future stays in place.  The ghost trace
records each completed resume. -/
def processNext : Nat → TasksData → Except Fault (TasksData × List Ev)
  | 0, d => .ok (d, [])
  | fuel + 1, d =>
    match d.next with
    | [] => .ok (d, [])
    | k :: _ =>
      match slabGet d.nodes k with
      | none => .error .missingTask
      | some t =>
        let d1 : TasksData :=
          { d with
              next := d.next.filter (fun x => x ≠ k)
              nodes := d.nodes.set k (some { t with awake := false }) }
        match slabGet d1.futs k with
        | none => .error .missingFut
        | some f =>
          match runFut f t.serial d1 with
          | .error e => .error e
          | .ok (out, d2, evs) =>
            match out with
            | none =>
              match slabGet d2.nodes k with
              | none => .error .missingTask
              | some t2 =>
                if t2.refs = 1 then
                  let d3 : TasksData :=
                    { d2 with
                        futs := d2.futs.set k none
                        next := d2.next.filter (fun x => x ≠ k)
                        nodes := d2.nodes.set k none }
                  (processNext fuel d3).map
                    (fun r => (r.1, evs ++ .resumed t.serial true :: r.2))
                else .error .refAssert
            | some f' =>
              let d3 : TasksData := { d2 with futs := d2.futs.set k (some f') }
              (processNext fuel d3).map
                (fun r => (r.1, evs ++ .resumed t.serial false :: r.2))

/-- `ArgExecutor::run`: repeatedly drain the ready list, stop when the
slab is empty, otherwise park (the reactor poll, `park().unwrap()`,
whose failure is fatal) and loop.  `outer` bounds the outer loop and
`inner` the drain loop. -/
def runExec (outer inner : Nat) (park : TasksData → Except Fault TasksData)
    (d : TasksData) : Except Fault (TasksData × List Ev) :=
  match outer with
  | 0 => .ok (d, [])
  | o + 1 =>
    match processNext inner d with
    | .error e => .error e
    | .ok (d', tr) =>
      if d'.isEmpty then .ok (d', tr)
      else
        match park d' with
        | .error e => .error e
        | .ok d'' =>
          (runExec o inner park d'').map (fun r => (r.1, tr ++ r.2))

/-- Spawn `n` top-level tasks whose continuations complete on their first
resume (`ArgExecutor::spawn` applied `n` times). -/
def spawnN : Nat → TasksData → TasksData
  | 0, d => d
  | n + 1, d => spawnN n (d.add none .ret).2.1

/-- Serials of completed-resume events in a ghost trace. -/
def resumedSerials (tr : List Ev) : List Nat :=
  tr.filterMap (fun e => match e with | .resumed s _ => some s | _ => none)

/-- Number of resumes that reported done (completions). -/
def doneCount (tr : List Ev) : Nat :=
  tr.countP (fun e => match e with | .resumed _ true => true | _ => false)

/-- Ghost serial of the task stored at key `k` (0 if vacant). -/
def serialAt (d : TasksData) (k : Nat) : Nat :=
  match slabGet d.nodes k with
  | some t => t.serial
  | none => 0

/-- A successful slab lookup implies the key is in range. -/
theorem slabGet_lt {τ : Type} {l : List (Option τ)} {k : Nat} {t : τ}
    (h : slabGet l k = some t) : k < l.length := by
  by_contra h'
  push_neg at h'
  rw [slabGet, List.getD_eq_default _ _ h'] at h
  exact Option.noConfusion h

/-- Lookup after writing the same slot. -/
theorem slabGet_set_self {τ : Type} (l : List (Option τ)) (k : Nat) (v : Option τ)
    (h : k < l.length) : slabGet (l.set k v) k = v := by
  rw [slabGet, List.getD_eq_getElem _ _ (by simpa using h)]
  simp

/-- Lookup after writing a different slot. -/
theorem slabGet_set_ne {τ : Type} (l : List (Option τ)) (k j : Nat) (v : Option τ)
    (h : j ≠ k) : slabGet (l.set k v) j = slabGet l j := by
  rcases Nat.lt_or_ge j l.length with hj | hj
  · rw [slabGet, List.getD_eq_getElem _ _ (by simpa using hj), slabGet,
      List.getD_eq_getElem _ _ hj]
    simp [List.getElem_set_ne (Ne.symm h)]
  · rw [slabGet, List.getD_eq_default _ _ (by simpa using hj), slabGet,
      List.getD_eq_default _ _ hj]

/-- Removing an identity from the modelled ready list leaves no entry. -/
theorem count_filter_ne_self (l : List Nat) (k : Nat) :
    (l.filter (fun x => x ≠ k)).count k = 0 := by
  simp [List.count_eq_zero]

/-- A one-suspended-task scheduler state used as a concrete example. -/
def exOneSuspended : TasksData :=
  { nodes := [some ⟨5, 1, false⟩, none]
    next := []
    futs := [some .ret, none]
    counter := 6 }

/-- A full-capacity scheduler state used as a concrete example. -/
def exFull : TasksData :=
  { nodes := [some ⟨0, 1, true⟩]
    next := [0]
    futs := [some .ret]
    counter := 1 }

/-- C1: for a task that is suspended (present and not awake, hence not yet
resumed), invoking its wake handle twice yields exactly one Ready List
entry for it; and `Tasks::wake` preserves the invariant that every task
identity appears at most once in the Ready List (waking an already-awake
task is a no-op). -/
theorem wake_twice_single_ready_entry (d : TasksData) (k : Nat) (t : ATask)
    (hget : slabGet d.nodes k = some t) (hsusp : t.awake = false) :
    (∃ d₂, ((d.wake k).bind fun d₁ => d₁.wake k) = .ok d₂ ∧ d₂.next.count k = 1) ∧
    (∀ e e' : TasksData, ∀ j : Nat, (∀ i, e.next.count i ≤ 1) → e.wake j = .ok e' →
      ∀ i, e'.next.count i ≤ 1) := by
  constructor
  · have hk := slabGet_lt hget
    have h1 : d.wake k = .ok
        { d with nodes := d.nodes.set k (some { t with awake := true }),
                 next := d.next.filter (fun x => x ≠ k) ++ [k] } := by
      rw [TasksData.wake, hget]
      simp [hsusp]
    refine ⟨{ d with nodes := d.nodes.set k (some { t with awake := true }),
                     next := d.next.filter (fun x => x ≠ k) ++ [k] }, ?_, ?_⟩
    · rw [h1]
      show TasksData.wake _ k = _
      rw [TasksData.wake]
      simp only [slabGet_set_self _ _ _ hk]
      rfl
    · rw [List.count_append, count_filter_ne_self]
      simp
  · intro e e' j hinv hw i
    rw [TasksData.wake] at hw
    rcases hg : slabGet e.nodes j with _ | t'
    · rw [hg] at hw
      exact Except.noConfusion hw
    · rw [hg] at hw
      by_cases ha : t'.awake = true
      · simp only [ha, if_true] at hw
        cases hw
        exact hinv i
      · simp only [ha, if_false] at hw
        cases hw
        show (e.next.filter (fun x => x ≠ j) ++ [j]).count i ≤ 1
        rw [List.count_append]
        have h0 := hinv i
        have h1 : ((e.next.filter (fun x => x ≠ j)).count i) ≤ e.next.count i :=
          (List.filter_sublist e.next).count_le i
        by_cases hij : i = j
        · subst hij
          rw [count_filter_ne_self]
          simp
        · have h2 : List.count i [j] = 0 := by
            simp [List.count_eq_zero]
            exact fun h => absurd h hij
          omega

/-- Witness for C1 at a concrete one-task state. -/
theorem wake_twice_single_ready_entry_witness :
    ∃ d₂, ((exOneSuspended.wake 0).bind fun d₁ => d₁.wake 0) = .ok d₂ ∧
      d₂.next.count 0 = 1 :=
  (wake_twice_single_ready_entry exOneSuspended 0 ⟨5, 1, false⟩ (by decide) (by decide)).1

/-- C4: `Tasks::add` at full capacity returns `Err(())` and leaves the
scheduler state (slab, ready list, awake flags, future storage) entirely
unchanged. -/
theorem spawn_at_capacity_error (d : TasksData) (parent : Option Nat) (f : Fut)
    (hfull : slabLen d.nodes = d.nodes.length) :
    (d.add parent f).1 = .error () ∧ (d.add parent f).2.1 = d := by
  rw [TasksData.add]
  simp [hfull]

/-- Witness for C4 at a concrete full state. -/
theorem spawn_at_capacity_error_witness :
    (exFull.add none .ret).1 = .error () ∧ (exFull.add none .ret).2.1 = exFull :=
  spawn_at_capacity_error exFull none .ret (by decide)

/-- Waker operations a continuation may perform on the `SharedWaker` of
`src/future.rs` during one `poll`: `RawWaker::clone`
(`Executor::add_waker_ref`) and releasing a clone
(`Executor::remove_waker_ref`).  `wake_by_ref` does not change the count
and `wake` is `wake_by_ref` followed by a release. -/
inductive WOp where
  | clone : WOp
  | dropRef : WOp
deriving DecidableEq, Repr

/-- Number of clones in a sequence of waker operations. -/
def clonesIn (ops : List WOp) : Nat :=
  ops.countP (fun o => match o with | .clone => true | .dropRef => false)

/-- Number of releases in a sequence of waker operations. -/
def dropsIn (ops : List WOp) : Nat :=
  ops.countP (fun o => match o with | .clone => false | .dropRef => true)

/-- Apply a continuation's waker operations to the task's `waker_refs`
count: `add_waker_ref` increments; `remove_waker_ref` asserts the count
is positive and decrements. -/
def wrApply : List WOp → Nat → Except Fault Nat
  | [], n => .ok n
  | .clone :: r, n => wrApply r (n + 1)
  | .dropRef :: r, n => if n > 0 then wrApply r (n - 1) else .error .underflow

/-- The `waker_refs` arithmetic of one resume in `Executor::exec` of
`src/future.rs`: `as_std_waker` increments the count (the scheduler's
transient share), the continuation's operations run during `poll`, and
the scheduler's `Waker` is dropped afterwards (assert positive,
decrement).  Returns the task's `waker_refs` after the resume. -/
def wrResume (ops : List WOp) (n0 : Nat) : Except Fault Nat :=
  match wrApply ops (n0 + 1) with
  | .error e => .error e
  | .ok n => if n > 0 then .ok (n - 1) else .error .underflow

/-- Task removal in `Executor::exec` when the continuation reported
`Poll::Ready`: after the resume, `assert_eq!(task.waker_refs, 0)`; the
task is removed only when the count is exactly 0, any other count is the
fatal `refAssert` fault. -/
def wrComplete (ops : List WOp) (n0 : Nat) : Except Fault Unit :=
  match wrResume ops n0 with
  | .error e => .error e
  | .ok n => if n = 0 then .ok () else .error .refAssert

/-- Balance of the waker-ref count through a continuation's operations. -/
theorem wrApply_balance (ops : List WOp) (m w : Nat) (h : wrApply ops m = .ok w) :
    w + dropsIn ops = m + clonesIn ops := by
  induction ops generalizing m with
  | nil =>
    cases h
    simp [clonesIn, dropsIn]
  | cons o r ih =>
    cases o with
    | clone =>
      have := ih (m + 1) (by simpa [wrApply] using h)
      simp [clonesIn, dropsIn, List.countP_cons] at *
      omega
    | dropRef =>
      rw [wrApply] at h
      by_cases hm : m > 0
      · rw [if_pos hm] at h
        have := ih (m - 1) h
        simp [clonesIn, dropsIn, List.countP_cons] at *
        omega
      · rw [if_neg hm] at h
        exact Except.noConfusion h

/-- C2: when a continuation reports Done and `Executor::exec` removes the
task, the final `waker_refs` count is the scheduler's own implicit share
— 0, its transient increment and decrement around the `poll` cancelling —
exactly when the continuation released every clone it made; the removal
assertion passes iff the count is 0, and any other count is the fatal,
non-recoverable `refAssert` fault. -/
theorem completed_task_refcount_assert (ops : List WOp) (n0 n : Nat)
    (h : wrResume ops n0 = .ok n) :
    n + dropsIn ops = n0 + clonesIn ops ∧
    (wrComplete ops n0 = .ok () ↔ n = 0) ∧
    (n ≠ 0 → wrComplete ops n0 = .error .refAssert) := by
  have hbal : n + dropsIn ops = n0 + clonesIn ops := by
    rw [wrResume] at h
    rcases ha : wrApply ops (n0 + 1) with e | w
    · rw [ha] at h
      exact Except.noConfusion h
    · rw [ha] at h
      dsimp only at h
      by_cases hw : w > 0
      · rw [if_pos hw] at h
        cases h
        have := wrApply_balance ops (n0 + 1) w ha
        omega
      · rw [if_neg hw] at h
        exact Except.noConfusion h
  refine ⟨hbal, ?_, ?_⟩
  · rw [wrComplete, h]
    dsimp only
    constructor
    · intro hc
      by_contra hn
      rw [if_neg hn] at hc
      exact Except.noConfusion hc
    · intro hn
      rw [if_pos hn]
  · intro hn
    rw [wrComplete, h]
    dsimp only
    rw [if_neg hn]

/-- Witness for C2: a continuation that clones the waker once and releases
it once completes with count 0 and passes the removal assertion. -/
theorem completed_task_refcount_assert_witness :
    0 + dropsIn [WOp.clone, WOp.dropRef] = 0 + clonesIn [WOp.clone, WOp.dropRef] ∧
    (wrComplete [WOp.clone, WOp.dropRef] 0 = .ok () ↔ 0 = 0) ∧
    ((0 : Nat) ≠ 0 → wrComplete [WOp.clone, WOp.dropRef] 0 = .error .refAssert) :=
  completed_task_refcount_assert [WOp.clone, WOp.dropRef] 0 0 (by rfl)

/-- `TaskWaker::wake_by_ref` of the `boxrc` module of `src/executor.rs`:
the waker holds a `Weak` back-reference to the scheduler's `Tasks`;
`upgrade` is modelled as an `Option` that is `none` once the executor has
been dropped.  On a successful upgrade it delegates to `Tasks::wake`; on
a failed upgrade it simply returns. -/
def boxrcWakeByRef (task_id : Nat) (upgraded : Option TasksData) :
    Except Fault (Option TasksData) :=
  match upgraded with
  | some tasks => (tasks.wake task_id).map some
  | none => .ok none

/-- C9 counterexample: invoking a `boxrc` wake handle after the owning
executor has been destroyed does NOT abort — the weak back-reference
fails to upgrade and the invocation returns normally with no effect, so
the claim that such an invocation is a fatal fault that must abort is
false at this input. -/
theorem wake_after_drop_counterexample :
    boxrcWakeByRef 0 none = .ok none ∧
    ∀ f : Fault, boxrcWakeByRef 0 none ≠ .error f :=
  ⟨rfl, fun _ h => Except.noConfusion h⟩

/-- C9 amended: invoking a wake handle after the owning Scheduler has
been destroyed is a silent no-op in the reference-counted (`boxrc`)
executor: the `Weak::upgrade` fails and the invocation returns normally,
waking nothing and not aborting. -/
theorem wake_after_drop_noop (task_id : Nat) :
    boxrcWakeByRef task_id none = .ok none :=
  rfl

/-- `Spawner::spawn` of `src/future.rs` (and `ArgSpawner::spawn` of
`src/executor.rs`): the spawner's `data` cell holds the back-pointer to
its executor, modelled as the executor's state when attached and `none`
when detached; a detached spawner returns `Err(())` without touching any
executor, an attached one forwards to the executor's spawn
(`Tasks::add`). -/
def spawnerSpawn (sp : Option TasksData) (f : Fut) :
    Except Unit Unit × Option TasksData :=
  match sp with
  | none => (.error (), none)
  | some ex =>
    let r := ex.add none f
    (r.1.map (fun _ => ()), some r.2.1)

/-- `Drop for ArgExecutor` (`src/executor.rs`) and `Drop for Executor`
(`src/future.rs`): dropping the executor clears the attached spawner's
back-pointer. -/
def executorDrop (_sp : Option TasksData) : Option TasksData :=
  none

/-- C10: spawning on a detached Spawner — never attached, or detached by
the executor's drop clearing the back-pointer — returns `Err(())` and
touches no scheduler state; after `executorDrop` every spawn takes the
detached branch, which never dereferences an executor. -/
theorem detached_spawner_spawn_err (f : Fut) :
    (spawnerSpawn none f).1 = .error () ∧ (spawnerSpawn none f).2 = none ∧
    ∀ sp : Option TasksData, spawnerSpawn (executorDrop sp) f = (.error (), none) :=
  ⟨rfl, rfl, fun _ => rfl⟩

/-- `EventRegistration` of `src/future.rs`: the ready flag and the
currently bound waker.  A bound waker is identified by the ghost id of
the task it wakes. -/
structure Reg where
  ready : Bool
  waker : Option Nat
deriving DecidableEq, Repr

/-- `FakeReactorData` of `src/future.rs`: the registration slab, plus a
ghost counter of queries made to the external readiness source. -/
structure ReactorSt where
  registrations : List (Option Reg)
  pollCalls : Nat
deriving DecidableEq, Repr

/-- The loop body of `FakeReactor::poll` over the reported events: for
each reported key, if a registration exists, set its ready flag and
`take` its waker, invoking it; the woken list collects the invocations
as (registration key, woken id) pairs in order. -/
def pollGo : List Nat → ReactorSt → ReactorSt × List (Nat × Nat)
  | [], st => (st, [])
  | key :: rest, st =>
    match slabGet st.registrations key with
    | none => pollGo rest st
    | some reg =>
      let st' : ReactorSt :=
        { st with registrations :=
            st.registrations.set key (some { ready := true, waker := none }) }
      let q := pollGo rest st'
      match reg.waker with
      | some w => (q.1, (key, w) :: q.2)
      | none => q

/-- `FakeReactor::poll` of `src/future.rs`: query the external readiness
source exactly once (ghost-counted), obtaining the reported events, then
run the loop body over them. -/
def ReactorSt.pollStep (r : ReactorSt) (events : List Nat) :
    ReactorSt × List (Nat × Nat) :=
  pollGo events { r with pollCalls := r.pollCalls + 1 }

/-- `Drop for RegistrationHandle` of `src/future.rs`: remove the
registration entry. -/
def ReactorSt.removeReg (r : ReactorSt) (key : Nat) : ReactorSt :=
  { r with registrations := r.registrations.set key none }

/-- A sequence of reactor polls, each with its reported events,
concatenating the wake invocations. -/
def pollMany : List (List Nat) → ReactorSt → ReactorSt × List (Nat × Nat)
  | [], r => (r, [])
  | es :: rest, r =>
    let p := r.pollStep es
    let q := pollMany rest p.1
    (q.1, p.2 ++ q.2)

/-- Clearing a slab slot makes its lookup vacant. -/
theorem slabGet_set_none {τ : Type} (l : List (Option τ)) (k : Nat) :
    slabGet (l.set k none) k = none := by
  rcases Nat.lt_or_ge k l.length with hk | hk
  · exact slabGet_set_self l k none hk
  · rw [slabGet, List.getD_eq_default _ _ (by simpa using hk)]

/-- The poll loop does not touch the ghost query counter. -/
theorem pollGo_pollCalls (es : List Nat) (st : ReactorSt) :
    (pollGo es st).1.pollCalls = st.pollCalls := by
  induction es generalizing st with
  | nil => rfl
  | cons e rest ih =>
    rw [pollGo]
    rcases hg : slabGet st.registrations e with _ | reg
    · exact ih st
    · dsimp only
      rcases reg.waker with _ | w
      · exact ih _
      · exact ih _

/-- The poll loop never creates a registration: a vacant key stays
vacant. -/
theorem pollGo_absent (es : List Nat) (st : ReactorSt) (k : Nat)
    (h : slabGet st.registrations k = none) :
    slabGet (pollGo es st).1.registrations k = none := by
  induction es generalizing st with
  | nil => exact h
  | cons e rest ih =>
    rw [pollGo]
    rcases hg : slabGet st.registrations e with _ | reg
    · exact ih st h
    · have hne : k ≠ e := by
        rintro rfl
        rw [h] at hg
        exact Option.noConfusion hg
      have h' : slabGet (st.registrations.set e (some { ready := true, waker := none })) k
          = none := by
        rw [slabGet_set_ne _ _ _ _ hne]
        exact h
      dsimp only
      rcases reg.waker with _ | w
      · exact ih _ h'
      · exact ih _ h'

/-- If the registration at `k` holds no bound waker (or does not exist),
the poll loop emits no wake invocation for `k` and leaves `k` without a
bound waker. -/
theorem pollGo_key_noWake (es : List Nat) (st : ReactorSt) (k : Nat)
    (h : (slabGet st.registrations k).bind Reg.waker = none) :
    (pollGo es st).2.filter (fun p => p.1 = k) = [] ∧
    (slabGet (pollGo es st).1.registrations k).bind Reg.waker = none := by
  induction es generalizing st with
  | nil => exact ⟨rfl, h⟩
  | cons e rest ih =>
    rw [pollGo]
    rcases hg : slabGet st.registrations e with _ | reg
    · exact ih st h
    · dsimp only
      by_cases hke : k = e
      · subst hke
        rw [hg] at h
        have hw : reg.waker = none := h
        have h' : (slabGet (st.registrations.set k (some { ready := true, waker := none }))
            k).bind Reg.waker = none := by
          rcases Nat.lt_or_ge k st.registrations.length with hk | hk
          · rw [slabGet_set_self _ _ _ hk]
            rfl
          · rw [slabGet, List.getD_eq_default _ _ (by simpa using hk)]
            rfl
        rw [hw]
        refine ih ⟨st.registrations.set k (some { ready := true, waker := none }), st.pollCalls⟩ h'
      · have h' : (slabGet (st.registrations.set e (some { ready := true, waker := none }))
            k).bind Reg.waker = none := by
          rw [slabGet_set_ne _ _ _ _ hke]
          exact h
        rcases reg.waker with _ | w
        · exact ih ⟨st.registrations.set e (some { ready := true, waker := none }), st.pollCalls⟩ h'
        · have hr := ih ⟨st.registrations.set e (some { ready := true, waker := none }), st.pollCalls⟩ h'
          refine ⟨?_, hr.2⟩
          dsimp only
          rw [List.filter_cons]
          have hne : ¬((e, w).1 = k) := fun hh => hke hh.symm
          simp only [hne, decide_eq_false hne, if_false]
          exact hr.1

/-- A registration already cleared to (ready, no waker) is left exactly
so by the poll loop. -/
theorem pollGo_cleared_preserved (es : List Nat) (st : ReactorSt) (k : Nat)
    (h : slabGet st.registrations k = some { ready := true, waker := none }) :
    slabGet (pollGo es st).1.registrations k = some { ready := true, waker := none } := by
  induction es generalizing st with
  | nil => exact h
  | cons e rest ih =>
    rw [pollGo]
    rcases hg : slabGet st.registrations e with _ | reg
    · exact ih st h
    · by_cases hke : k = e
      · subst hke
        have hreg : reg = { ready := true, waker := none } := by
          rw [h] at hg
          exact (Option.some.inj hg).symm
        subst hreg
        dsimp only
        have h' : slabGet (st.registrations.set k (some { ready := true, waker := none })) k
            = some { ready := true, waker := none } :=
          slabGet_set_self _ _ _ (slabGet_lt h)
        exact ih ⟨st.registrations.set k (some { ready := true, waker := none }), st.pollCalls⟩ h'
      · dsimp only
        have h' : slabGet (st.registrations.set e (some { ready := true, waker := none })) k
            = some { ready := true, waker := none } := by
          rw [slabGet_set_ne _ _ _ _ hke]
          exact h
        rcases reg.waker with _ | w
        · exact ih ⟨st.registrations.set e (some { ready := true, waker := none }), st.pollCalls⟩ h'
        · exact ih ⟨st.registrations.set e (some { ready := true, waker := none }), st.pollCalls⟩ h'

/-- Every registration whose key is reported by the poll loop ends with
its ready flag set and its waker slot cleared. -/
theorem pollGo_processed (es : List Nat) (st : ReactorSt) (k : Nat)
    (hmem : k ∈ es) (reg : Reg) (hg : slabGet st.registrations k = some reg) :
    slabGet (pollGo es st).1.registrations k = some { ready := true, waker := none } := by
  induction es generalizing st with
  | nil => cases hmem
  | cons e rest ih =>
    rw [pollGo]
    by_cases hke : k = e
    · subst hke
      rw [hg]
      dsimp only
      have h' : slabGet (st.registrations.set k (some { ready := true, waker := none })) k
          = some { ready := true, waker := none } :=
        slabGet_set_self _ _ _ (slabGet_lt hg)
      rcases reg.waker with _ | w
      · exact pollGo_cleared_preserved rest _ k h'
      · exact pollGo_cleared_preserved rest _ k h'
    · have hmem' : k ∈ rest := by
        rcases List.mem_cons.1 hmem with h | h
        · exact absurd h hke
        · exact h
      rcases hge : slabGet st.registrations e with _ | regE
      · exact ih st hmem' hg
      · dsimp only
        have h' : slabGet (st.registrations.set e (some { ready := true, waker := none })) k
            = some reg := by
          rw [slabGet_set_ne _ _ _ _ hke]
          exact hg
        rcases regE.waker with _ | w
        · exact ih ⟨st.registrations.set e (some { ready := true, waker := none }), st.pollCalls⟩ hmem' h'
        · exact ih ⟨st.registrations.set e (some { ready := true, waker := none }), st.pollCalls⟩ hmem' h'

/-- With distinct reported keys, the poll loop invokes exactly the wakers
bound (in the pre-poll state) to reported registrations, tagged by their
keys, in report order. -/
theorem pollGo_emit (es : List Nat) (st : ReactorSt) (hnd : es.Nodup) :
    (pollGo es st).2 = es.filterMap
      (fun k => ((slabGet st.registrations k).bind Reg.waker).map (fun w => (k, w))) := by
  induction es generalizing st with
  | nil => rfl
  | cons e rest ih =>
    have hnotmem : e ∉ rest := (List.nodup_cons.1 hnd).1
    have hnd' : rest.Nodup := (List.nodup_cons.1 hnd).2
    rw [pollGo, List.filterMap_cons]
    rcases hg : slabGet st.registrations e with _ | reg
    · dsimp only [Option.bind, Option.map]
      exact ih st hnd'
    · dsimp only
      have hcong : rest.filterMap
          (fun k => ((slabGet (st.registrations.set e (some { ready := true, waker := none }))
            k).bind Reg.waker).map (fun w => (k, w))) = rest.filterMap
          (fun k => ((slabGet st.registrations k).bind Reg.waker).map (fun w => (k, w))) := by
        apply List.filterMap_congr
        intro a ha
        have hae : a ≠ e := fun hh => hnotmem (hh ▸ ha)
        rw [slabGet_set_ne _ _ _ _ hae]
      have hrest := ih ⟨st.registrations.set e (some { ready := true, waker := none }), st.pollCalls⟩ hnd'
      rcases hw : reg.waker with _ | w
      · simp only [Option.bind, hw, Option.map]
        rw [hrest]
        exact hcong
      · simp only [Option.bind, hw, Option.map]
        rw [hrest, hcong]
        rfl

/-- C6: a single `FakeReactor::poll` queries the external readiness
source exactly once (the ghost counter increments by one); with the
distinct reported keys, it invokes precisely the wakers bound to the
reported registrations, each exactly once, in order; every reported
registration ends with its ready flag set and its waker slot cleared;
and a later poll, whatever it reports, invokes no waker for a key
reported now (one-shot: the continuation must rebind first). -/
theorem reactor_poll_one_shot (r : ReactorSt) (events : List Nat)
    (hnd : events.Nodup) :
    (r.pollStep events).1.pollCalls = r.pollCalls + 1 ∧
    (r.pollStep events).2 = events.filterMap
      (fun k => ((slabGet r.registrations k).bind Reg.waker).map (fun w => (k, w))) ∧
    (∀ k ∈ events, ∀ reg, slabGet r.registrations k = some reg →
      slabGet (r.pollStep events).1.registrations k
        = some { ready := true, waker := none }) ∧
    (∀ k ∈ events, ∀ events₂ : List Nat,
      ((r.pollStep events).1.pollStep events₂).2.filter (fun p => p.1 = k) = []) := by
  refine ⟨?_, ?_, ?_, ?_⟩
  · rw [ReactorSt.pollStep, pollGo_pollCalls]
  · exact pollGo_emit events _ hnd
  · intro k hk reg hreg
    exact pollGo_processed events _ k hk reg hreg
  · intro k hk events₂
    have hnw : (slabGet ((r.pollStep events).1).registrations k).bind Reg.waker = none := by
      rcases hreg : slabGet r.registrations k with _ | reg
      · show (slabGet (pollGo events ⟨r.registrations, r.pollCalls + 1⟩).1.registrations
            k).bind Reg.waker = none
        rw [pollGo_absent events ⟨r.registrations, r.pollCalls + 1⟩ k hreg]
        rfl
      · show (slabGet (pollGo events ⟨r.registrations, r.pollCalls + 1⟩).1.registrations
            k).bind Reg.waker = none
        rw [pollGo_processed events ⟨r.registrations, r.pollCalls + 1⟩ k hk reg hreg]
        rfl
    exact (pollGo_key_noWake events₂
      ⟨(r.pollStep events).1.registrations, (r.pollStep events).1.pollCalls + 1⟩ k hnw).1

/-- A concrete two-registration reactor used as an example. -/
def exReactor : ReactorSt :=
  { registrations := [some { ready := false, waker := some 7 },
                      some { ready := false, waker := none }, none]
    pollCalls := 0 }

/-- Witness for C6 on a concrete reactor: one query, and exactly the one
bound waker is invoked once. -/
theorem reactor_poll_one_shot_witness :
    (exReactor.pollStep [0, 1]).1.pollCalls = exReactor.pollCalls + 1 ∧
    (exReactor.pollStep [0, 1]).2 = [(0, 7)] := by
  have h := reactor_poll_one_shot exReactor [0, 1] (by decide)
  exact ⟨h.1, h.2.1.trans (by decide)⟩

/-- A vacant registration key stays vacant through any sequence of polls,
and no wake invocation is ever attributed to it. -/
theorem pollMany_absent (ess : List (List Nat)) (st : ReactorSt) (key : Nat)
    (h : slabGet st.registrations key = none) :
    slabGet (pollMany ess st).1.registrations key = none ∧
    (pollMany ess st).2.filter (fun p => p.1 = key) = [] := by
  induction ess generalizing st with
  | nil => exact ⟨h, rfl⟩
  | cons es rest ih =>
    rw [pollMany]
    dsimp only
    have habs : slabGet (st.pollStep es).1.registrations key = none :=
      pollGo_absent es ⟨st.registrations, st.pollCalls + 1⟩ key h
    have hfil : ((st.pollStep es).2.filter (fun p => p.1 = key)) = [] := by
      refine (pollGo_key_noWake es ⟨st.registrations, st.pollCalls + 1⟩ key ?_).1
      show (slabGet st.registrations key).bind Reg.waker = none
      rw [h]
      rfl
    have hr := ih (st.pollStep es).1 habs
    refine ⟨hr.1, ?_⟩
    rw [List.filter_append, hfil, hr.2]
    rfl

/-- C7: after a `RegistrationHandle` is dropped its registration entry is
removed, and through every subsequent sequence of `FakeReactor::poll`
calls the entry stays absent, no ready flag can be set for it, and no
waker is ever invoked for that registration key. -/
theorem registration_removed_never_reported (r : ReactorSt) (key : Nat)
    (ess : List (List Nat)) :
    slabGet (r.removeReg key).registrations key = none ∧
    slabGet (pollMany ess (r.removeReg key)).1.registrations key = none ∧
    (pollMany ess (r.removeReg key)).2.filter (fun p => p.1 = key) = [] := by
  have h0 : slabGet (r.removeReg key).registrations key = none :=
    slabGet_set_none _ _
  have h := pollMany_absent ess (r.removeReg key) key h0
  exact ⟨h0, h.1, h.2⟩

/-- Cons-lookup at index zero. -/
theorem slabGet_cons_zero {τ : Type} (x : Option τ) (xs : List (Option τ)) :
    slabGet (x :: xs) 0 = x :=
  rfl

/-- Cons-lookup at a successor index. -/
theorem slabGet_cons_succ {τ : Type} (x : Option τ) (xs : List (Option τ)) (k : Nat) :
    slabGet (x :: xs) (k + 1) = slabGet xs k :=
  rfl

/-- Filling a vacant in-range slot grows the live count by one. -/
theorem slabLen_set_some {τ : Type} (l : List (Option τ)) (k : Nat) (v : τ)
    (hk : k < l.length) (hnone : slabGet l k = none) :
    slabLen (l.set k (some v)) = slabLen l + 1 := by
  induction l generalizing k with
  | nil => cases hk
  | cons x xs ih =>
    cases k with
    | zero =>
      have hx : x = none := hnone
      subst hx
      simp [slabLen, List.countP_cons]
    | succ k' =>
      have hk' : k' < xs.length := by simpa using hk
      have := ih k' hk' hnone
      simp only [List.set_cons_succ, slabLen, List.countP_cons]
      simp only [slabLen] at this
      omega

/-- Emptying an occupied in-range slot shrinks the live count by one. -/
theorem slabLen_set_none {τ : Type} (l : List (Option τ)) (k : Nat) (v : τ)
    (hsome : slabGet l k = some v) :
    slabLen (l.set k none) + 1 = slabLen l := by
  induction l generalizing k with
  | nil => exact absurd hsome (by simp [slabGet])
  | cons x xs ih =>
    cases k with
    | zero =>
      have hx : x = some v := hsome
      subst hx
      simp [slabLen, List.countP_cons]
    | succ k' =>
      have := ih k' hsome
      simp only [List.set_cons_succ, slabLen, List.countP_cons]
      simp only [slabLen] at this
      omega

/-- A slab whose every in-range lookup is vacant has live count zero. -/
theorem slabLen_zero_of_all_none {τ : Type} (l : List (Option τ))
    (h : ∀ k, k < l.length → slabGet l k = none) : slabLen l = 0 := by
  rw [slabLen, List.countP_eq_zero]
  intro x hx
  rcases List.getElem_of_mem hx with ⟨i, hi, hxi⟩
  have := h i hi
  rw [slabGet, List.getD_eq_getElem _ _ hi, hxi] at this
  subst this
  simp

/-- The first vacant key is the first index whose lookup is vacant. -/
theorem vacantKey_eq {τ : Type} (l : List (Option τ)) (i : Nat) (hi : i < l.length)
    (hnone : slabGet l i = none) (hbefore : ∀ j, j < i → (slabGet l j).isSome = true) :
    vacantKey l = i := by
  induction l generalizing i with
  | nil => cases hi
  | cons x xs ih =>
    rw [vacantKey, List.findIdx_cons]
    cases i with
    | zero =>
      have hx : x = none := hnone
      subst hx
      rfl
    | succ i' =>
      have hx : x.isSome = true := hbefore 0 (Nat.succ_pos _)
      have hxn : x.isNone = false := by
        rcases x with _ | v
        · cases hx
        · rfl
      rw [hxn]
      have hr : xs.findIdx (fun o => o.isNone) = i' := by
        have := ih i' (by simpa using hi) hnone
          (fun j hj => hbefore (j + 1) (by omega))
        simpa [vacantKey] using this
      simp [hr]

/-- Removing the head identity from a ready list it does not reoccur in. -/
theorem filter_ne_of_head (k : Nat) (q : List Nat) (hnotq : ∀ x ∈ q, x ≠ k) :
    (k :: q).filter (fun x => x ≠ k) = q := by
  rw [List.filter_cons]
  have h1 : (decide (k ≠ k)) = false := by simp
  rw [h1]
  simp only [Bool.false_eq_true, if_false]
  exact List.filter_eq_self.2 (fun a ha => by simpa using hnotq a ha)

/-- One `process_next` iteration on a ready task whose continuation
completes immediately: the task is popped, resumed once, passes the
reference-count assertion and is removed from slab, list and future
storage; the loop then continues on the smaller state. -/
theorem processNext_ret_step (fuel : Nat) (d : TasksData) (k : Nat) (q : List Nat) (s : Nat)
    (hq : d.next = k :: q) (hnode : slabGet d.nodes k = some ⟨s, 1, true⟩)
    (hfut : slabGet d.futs k = some Fut.ret) (hnotq : ∀ x ∈ q, x ≠ k) :
    processNext (fuel + 1) d = (processNext fuel
        { nodes := d.nodes.set k none, next := q,
          futs := d.futs.set k none, counter := d.counter }).map
      (fun r => (r.1, Ev.resumed s true :: r.2)) := by
  have hklen : k < d.nodes.length := slabGet_lt hnode
  have hfilter : (k :: q).filter (fun x => x ≠ k) = q := filter_ne_of_head k q hnotq
  rw [processNext, hq]
  dsimp only
  rw [hnode]
  dsimp only
  rw [hfilter]
  rw [hfut]
  dsimp only [runFut]
  rw [slabGet_set_self _ _ _ hklen]
  dsimp only
  rw [if_pos rfl]
  rw [List.set_set]
  rw [List.filter_eq_self.2 (fun a ha => by simpa using hnotq a ha)]
  rfl

/-- A scheduler state whose every live task is queued exactly once, awake,
holds a fresh wake handle and an immediately-completing continuation. -/
def AllRet (d : TasksData) : Prop :=
  d.next.Nodup ∧
  d.futs.length = d.nodes.length ∧
  (∀ k : Nat, (slabGet d.nodes k).isSome = true ↔ k ∈ d.next) ∧
  (∀ k ∈ d.next, ∃ s : Nat, slabGet d.nodes k = some ⟨s, 1, true⟩ ∧
    slabGet d.futs k = some Fut.ret)

/-- Draining a state of immediately-completing tasks: with fuel equal to
the ready-list length, `process_next` completes every task, empties the
slab and reports one done-resume per task. -/
theorem drain_allret (q : List Nat) (d : TasksData) (hq : d.next = q) (h : AllRet d) :
    ∃ d' tr, processNext q.length d = .ok (d', tr) ∧
      slabLen d'.nodes = 0 ∧ doneCount tr = q.length := by
  induction q generalizing d with
  | nil =>
    refine ⟨d, [], rfl, ?_, rfl⟩
    apply slabLen_zero_of_all_none
    intro k hk
    rcases hg : slabGet d.nodes k with _ | t
    · rfl
    · have : k ∈ d.next := (h.2.2.1 k).1 (by rw [hg]; rfl)
      rw [hq] at this
      cases this
  | cons k q ih =>
    obtain ⟨hnd, hlen, hiff, hall⟩ := h
    obtain ⟨s, hnode, hfut⟩ := hall k (by rw [hq]; exact List.mem_cons_self k q)
    have hnd' : (k :: q).Nodup := hq ▸ hnd
    have hk_notin : k ∉ q := (List.nodup_cons.1 hnd').1
    have hqnd : q.Nodup := (List.nodup_cons.1 hnd').2
    have hnotq : ∀ x ∈ q, x ≠ k := fun x hx hxe => hk_notin (hxe ▸ hx)
    have hklen : k < d.nodes.length := slabGet_lt hnode
    have hstep := processNext_ret_step q.length d k q s hq hnode hfut hnotq
    set d3 : TasksData :=
      { nodes := d.nodes.set k none, next := q,
        futs := d.futs.set k none, counter := d.counter } with hd3
    have h3 : AllRet d3 := by
      refine ⟨hqnd, ?_, ?_, ?_⟩
      · simp [hd3, hlen]
      · intro j
        by_cases hjk : j = k
        · subst hjk
          rw [hd3]
          dsimp only
          rw [slabGet_set_self _ _ _ hklen]
          constructor
          · intro hh
            cases hh
          · intro hh
            exact absurd hh hk_notin
        · rw [hd3]
          dsimp only
          rw [slabGet_set_ne _ _ _ _ hjk]
          rw [hiff j, hq]
          constructor
          · intro hh
            rcases List.mem_cons.1 hh with h1 | h1
            · exact absurd h1 hjk
            · exact h1
          · intro hh
            exact List.mem_cons.2 (Or.inr hh)
      · intro j hj
        have hjk : j ≠ k := hnotq j hj
        obtain ⟨s', hn', hf'⟩ := hall j (by rw [hq]; exact List.mem_cons.2 (Or.inr hj))
        refine ⟨s', ?_, ?_⟩
        · rw [hd3]
          dsimp only
          rw [slabGet_set_ne _ _ _ _ hjk]
          exact hn'
        · rw [hd3]
          dsimp only
          rw [slabGet_set_ne _ _ _ _ hjk]
          exact hf'
    obtain ⟨d', tr', hrun, hempty, hdone⟩ := ih d3 rfl h3
    refine ⟨d', Ev.resumed s true :: tr', ?_, hempty, ?_⟩
    · rw [show (k :: q).length = q.length + 1 from rfl, hstep, hrun]
      rfl
    · rw [doneCount, List.countP_cons]
      rw [doneCount] at hdone
      simp [hdone]

/-- Lookup in an all-vacant slab. -/
theorem slabGet_replicate_none {τ : Type} (n k : Nat) :
    slabGet (List.replicate n (none : Option τ)) k = none := by
  rcases Nat.lt_or_ge k n with hk | hk
  · rw [slabGet, List.getD_eq_getElem _ _ (by simpa using hk)]
    exact List.getElem_replicate ..
  · rw [slabGet, List.getD_eq_default _ _ (by simpa using hk)]

/-- The scheduler state after `n` in-order spawns of
immediately-completing tasks into a fresh executor of capacity `cap`. -/
def SpawnSt (n cap : Nat) (d : TasksData) : Prop :=
  d.nodes.length = cap ∧ d.futs.length = cap ∧ d.next = List.range n ∧
  d.counter = n ∧ slabLen d.nodes = n ∧
  (∀ k, k < n → slabGet d.nodes k = some ⟨k, 1, true⟩ ∧
    slabGet d.futs k = some Fut.ret) ∧
  (∀ k, n ≤ k → slabGet d.nodes k = none)

/-- A fresh executor satisfies the spawn invariant at zero tasks. -/
theorem spawnSt_init (cap : Nat) : SpawnSt 0 cap (TasksData.init cap) := by
  refine ⟨by simp [TasksData.init], by simp [TasksData.init], rfl, rfl, ?_, ?_, ?_⟩
  · apply slabLen_zero_of_all_none
    intro k _
    exact slabGet_replicate_none cap k
  · intro k hk
    cases hk
  · intro k _
    exact slabGet_replicate_none cap k

/-- One successful spawn preserves the spawn invariant, taking the next
key in order. -/
theorem spawnSt_add (n cap : Nat) (d : TasksData) (h : SpawnSt n cap d) (hlt : n < cap) :
    SpawnSt (n + 1) cap (d.add none Fut.ret).2.1 := by
  obtain ⟨hln, hlf, hnx, hc, hsl, hsome, hnone⟩ := h
  have hnlen : n < d.nodes.length := hln ▸ hlt
  have hnlenf : n < d.futs.length := hlf ▸ hlt
  have hfull : ¬(slabLen d.nodes = d.nodes.length) := by
    rw [hsl, hln]
    omega
  have hvk : vacantKey d.nodes = n :=
    vacantKey_eq _ n hnlen (hnone n le_rfl)
      (fun j hj => by rw [(hsome j hj).1]; rfl)
  rw [TasksData.add, if_neg hfull]
  dsimp only
  rw [hvk, hc]
  refine ⟨by simp [hln], by simp [hlf], ?_, rfl, ?_, ?_, ?_⟩
  · rw [hnx, List.range_succ]
  · exact slabLen_set_some d.nodes n _ hnlen (hnone n le_rfl) |>.trans (by rw [hsl])
  · intro k hk
    rcases Nat.lt_or_ge k n with hkn | hkn
    · have hne : k ≠ n := Nat.ne_of_lt hkn
      constructor
      · rw [slabGet_set_ne _ _ _ _ hne]
        exact (hsome k hkn).1
      · rw [slabGet_set_ne _ _ _ _ hne]
        exact (hsome k hkn).2
    · have hkn' : k = n := by omega
      subst hkn'
      constructor
      · rw [slabGet_set_self _ _ _ hnlen]
      · rw [slabGet_set_self _ _ _ hnlenf]
  · intro k hk
    have hne : k ≠ n := by omega
    rw [slabGet_set_ne _ _ _ _ hne]
    exact hnone k (by omega)

/-- Iterating spawns preserves the spawn invariant. -/
theorem spawnN_spawnSt (nadd : Nat) (n cap : Nat) (d : TasksData)
    (h : SpawnSt n cap d) (hle : n + nadd ≤ cap) :
    SpawnSt (n + nadd) cap (spawnN nadd d) := by
  induction nadd generalizing n d with
  | zero => simpa using h
  | succ m ih =>
    rw [spawnN]
    have hlt : n < cap := by omega
    have h1 := spawnSt_add n cap d h hlt
    have h2 := ih (n + 1) _ h1 (by omega)
    have he : n + 1 + m = n + (m + 1) := by omega
    rw [he] at h2
    exact h2

/-- C3: for every N within capacity, spawning N immediately-completing
tasks and then running the executor yields exactly N completions and an
empty task slab; with nothing left the run loop exits before ever
parking. -/
theorem spawn_immediate_complete_run (N cap : Nat)
    (park : TasksData → Except Fault TasksData) (h : N ≤ cap) :
    ∃ d' tr, runExec 1 N park (spawnN N (TasksData.init cap)) = .ok (d', tr) ∧
      slabLen d'.nodes = 0 ∧ doneCount tr = N := by
  have hsp := spawnN_spawnSt N 0 cap (TasksData.init cap) (spawnSt_init cap)
    (by omega)
  rw [Nat.zero_add] at hsp
  obtain ⟨hln, hlf, hnx, hc, hsl, hsome, hnone⟩ := hsp
  have hall : AllRet (spawnN N (TasksData.init cap)) := by
    refine ⟨by rw [hnx]; exact List.nodup_range N, by rw [hlf, hln], ?_, ?_⟩
    · intro k
      rw [hnx, List.mem_range]
      constructor
      · intro hh
        by_contra hk
        push_neg at hk
        rw [hnone k hk] at hh
        cases hh
      · intro hk
        rw [(hsome k hk).1]
        rfl
    · intro k hk
      rw [hnx, List.mem_range] at hk
      exact ⟨k, (hsome k hk).1, (hsome k hk).2⟩
  obtain ⟨d', tr, hrun, hempty, hdone⟩ :=
    drain_allret (List.range N) (spawnN N (TasksData.init cap)) hnx hall
  rw [List.length_range] at hrun hdone
  refine ⟨d', tr, ?_, hempty, hdone⟩
  rw [runExec, hrun]
  dsimp only
  have hie : d'.isEmpty = true := by
    rw [TasksData.isEmpty, hempty]
    rfl
  rw [if_pos hie]

/-- Witness for C3 at N = 2, capacity 3. -/
theorem spawn_immediate_complete_run_witness :
    2 ≤ 3 ∧ ∃ d' tr, runExec 1 2 (fun d => .ok d) (spawnN 2 (TasksData.init 3))
      = .ok (d', tr) ∧ slabLen d'.nodes = 0 ∧ doneCount tr = 2 :=
  ⟨by decide, spawn_immediate_complete_run 2 3 (fun d => .ok d) (by decide)⟩

/-- Inversion of `Except.map` on a successful result. -/
theorem exceptMap_ok {ε α β : Type} (x : Except ε α) (g : α → β) (y : β)
    (h : x.map g = .ok y) : ∃ z, x = .ok z ∧ g z = y := by
  cases x with
  | error e => simp [Except.map] at h
  | ok z =>
    refine ⟨z, rfl, ?_⟩
    simpa [Except.map] using h

/-- Inversion of one successful `process_next` iteration: either the
ready list was empty and the loop stopped, or the head task was popped
and resumed, completing (passing the reference-count assertion, its slots
freed) or suspending (its mutated future stored back), and the loop
continued. -/
theorem processNext_succ_inv (fuel : Nat) (d d' : TasksData) (tr : List Ev)
    (h : processNext (fuel + 1) d = .ok (d', tr)) :
    (d.next = [] ∧ d' = d ∧ tr = []) ∨
    (∃ k q t f d2 evs t2 d4 tr2,
      d.next = k :: q ∧ slabGet d.nodes k = some t ∧ slabGet d.futs k = some f ∧
      runFut f t.serial
        { d with next := (k :: q).filter (fun x => x ≠ k),
                 nodes := d.nodes.set k (some { t with awake := false }) }
        = .ok (none, d2, evs) ∧
      slabGet d2.nodes k = some t2 ∧ t2.refs = 1 ∧
      processNext fuel
        { d2 with futs := d2.futs.set k none,
                  next := d2.next.filter (fun x => x ≠ k),
                  nodes := d2.nodes.set k none } = .ok (d4, tr2) ∧
      d' = d4 ∧ tr = evs ++ Ev.resumed t.serial true :: tr2) ∨
    (∃ k q t f f2 d2 evs d4 tr2,
      d.next = k :: q ∧ slabGet d.nodes k = some t ∧ slabGet d.futs k = some f ∧
      runFut f t.serial
        { d with next := (k :: q).filter (fun x => x ≠ k),
                 nodes := d.nodes.set k (some { t with awake := false }) }
        = .ok (some f2, d2, evs) ∧
      processNext fuel { d2 with futs := d2.futs.set k (some f2) } = .ok (d4, tr2) ∧
      d' = d4 ∧ tr = evs ++ Ev.resumed t.serial false :: tr2) := by
  rw [processNext] at h
  rcases hnext : d.next with _ | ⟨k, q⟩
  · rw [hnext] at h
    dsimp only at h
    refine Or.inl ⟨rfl, ?_, ?_⟩
    · exact (Prod.mk.injEq .. ▸ (Except.ok.inj h)).1.symm
    · exact (Prod.mk.injEq .. ▸ (Except.ok.inj h)).2.symm
  · rw [hnext] at h
    dsimp only at h
    rcases hget : slabGet d.nodes k with _ | t
    · rw [hget] at h
      exact Except.noConfusion h
    · rw [hget] at h
      dsimp only at h
      rcases hfut : slabGet d.futs k with _ | f
    
      · rw [hfut] at h
        exact Except.noConfusion h
      · rw [hfut] at h
        dsimp only at h
        rcases hrun : runFut f t.serial
            { d with next := (k :: q).filter (fun x => x ≠ k),
                     nodes := d.nodes.set k (some { t with awake := false }) }
          with e | ⟨out, d2, evs⟩
        · rw [hrun] at h
          exact Except.noConfusion h
        · rw [hrun] at h
          dsimp only at h
          rcases out with _ | f2
          · rcases hget2 : slabGet d2.nodes k with _ | t2
            · rw [hget2] at h
              exact Except.noConfusion h
            · rw [hget2] at h
              dsimp only at h
              by_cases hr : t2.refs = 1
              · rw [if_pos hr] at h
                obtain ⟨z, hz, hgz⟩ := exceptMap_ok _ _ _ h
                refine Or.inr (Or.inl ⟨k, q, t, f, d2, evs, t2, z.1, z.2, rfl, hget,
                  hfut, hrun, hget2, hr, ?_, ?_, ?_⟩)
                · exact hz ▸ rfl
                · exact ((Prod.mk.injEq .. ▸ hgz).1).symm
                · exact ((Prod.mk.injEq .. ▸ hgz).2).symm
              · rw [if_neg hr] at h
                exact Except.noConfusion h
          · obtain ⟨z, hz, hgz⟩ := exceptMap_ok _ _ _ h
            refine Or.inr (Or.inr ⟨k, q, t, f, f2, d2, evs, z.1, z.2, rfl, hget,
              hfut, hrun, ?_, ?_, ?_⟩)
            · exact hz ▸ rfl
            · exact ((Prod.mk.injEq .. ▸ hgz).1).symm
            · exact ((Prod.mk.injEq .. ▸ hgz).2).symm

/-- An indexed element is a member. -/
theorem mem_of_idx {α : Type} (l : List α) (i : Nat) (a : α) (h : l[i]? = some a) :
    a ∈ l := by
  have hi : i < l.length := by
    by_contra hc
    push_neg at hc
    rw [List.getElem?_eq_none hc] at h
    exact Option.noConfusion h
  rw [List.getElem?_eq_getElem hi] at h
  exact (Option.some.inj h) ▸ l.getElem_mem hi

/-- A not-full slab has an in-range vacant key. -/
theorem vacant_spot {τ : Type} (l : List (Option τ)) (h : slabLen l ≠ l.length) :
    vacantKey l < l.length ∧ slabGet l (vacantKey l) = none := by
  have hlt : slabLen l < l.length :=
    lt_of_le_of_ne (List.countP_le_length _) h
  have hex : ∃ x ∈ l, x.isNone = true := by
    by_contra hc
    push_neg at hc
    have : ∀ x ∈ l, x.isSome = true := by
      intro x hx
      rcases x with _ | v
      · exact False.elim ((hc none hx) rfl)
      · rfl
    have : slabLen l = l.length := List.countP_eq_length.2 this
    omega
  have hfind : l.findIdx (fun x => x.isNone) < l.length :=
    List.findIdx_lt_length_of_exists hex
  refine ⟨hfind, ?_⟩
  have hp : (l.get ⟨l.findIdx (fun x => x.isNone), hfind⟩).isNone = true :=
    List.findIdx_get
  rw [slabGet, vacantKey, List.getD_eq_getElem _ _ hfind]
  rw [List.get_eq_getElem] at hp
  exact Option.isNone_iff_eq_none.1 hp

/-- Ghost serial discipline: every live task's serial is below the
scheduler's allocation counter. -/
def SerialInv (d : TasksData) : Prop :=
  ∀ k t, slabGet d.nodes k = some t → t.serial < d.counter

/-- `Tasks::add` never decreases the ghost counter. -/
theorem add_counter_le (d : TasksData) (p : Option Nat) (f : Fut) :
    d.counter ≤ (d.add p f).2.1.counter := by
  rw [TasksData.add]
  split
  · exact le_rfl
  · exact Nat.le_succ _

/-- `Tasks::add` preserves the serial discipline. -/
theorem add_serialInv (d : TasksData) (p : Option Nat) (f : Fut) (h : SerialInv d) :
    SerialInv (d.add p f).2.1 := by
  rw [TasksData.add]
  split
  · exact h
  · intro k t hget
    dsimp only at hget ⊢
    rename_i hnotfull
    obtain ⟨hvlt, _⟩ := vacant_spot d.nodes hnotfull
    by_cases hk : k = vacantKey d.nodes
    · subst hk
      rw [slabGet_set_self _ _ _ hvlt] at hget
      cases Option.some.inj hget
      exact Nat.lt_succ_self _
    · rw [slabGet_set_ne _ _ _ _ hk] at hget
      exact Nat.lt_succ_of_lt (h k t hget)

/-- The spawn events of `Tasks::add` name the given parent and the
fresh serial. -/
theorem add_events (d : TasksData) (p : Option Nat) (f : Fut) :
    (d.add p f).2.2 = [] ∨ (d.add p f).2.2 = [Ev.spawned p d.counter] := by
  rw [TasksData.add]
  split
  · exact Or.inl rfl
  · exact Or.inr rfl

/-- `Tasks::wake` keeps counter and serials. -/
theorem wake_counter_serial (d d2 : TasksData) (j : Nat) (h : d.wake j = .ok d2) :
    d2.counter = d.counter ∧ (SerialInv d → SerialInv d2) := by
  rw [TasksData.wake] at h
  rcases hg : slabGet d.nodes j with _ | t
  · rw [hg] at h
    exact Except.noConfusion h
  · rw [hg] at h
    dsimp only at h
    by_cases ha : t.awake = true
    · rw [if_pos ha] at h
      cases Except.ok.inj h
      exact ⟨rfl, id⟩
    · rw [if_neg ha] at h
      cases Except.ok.inj h
      refine ⟨rfl, ?_⟩
      intro hs k t' hget
      dsimp only at hget ⊢
      by_cases hk : k = j
      · subst hk
        rw [slabGet_set_self _ _ _ (slabGet_lt hg)] at hget
        cases Option.some.inj hget
        exact hs k t hg
      · rw [slabGet_set_ne _ _ _ _ hk] at hget
        exact hs k t' hget

/-- One resume never emits a resume event, spawns only with the resumed
task as parent and only serials at or above the entry counter, keeps the
counter monotone and preserves the serial discipline. -/
theorem runFut_trace (f : Fut) (s : Nat) (d : TasksData) (out : Option Fut)
    (d' : TasksData) (evs : List Ev)
    (h : runFut f s d = .ok (out, d', evs)) :
    d.counter ≤ d'.counter ∧
    (SerialInv d → SerialInv d') ∧
    (∀ e ∈ evs, ∃ c, e = .spawned (some s) c ∧ d.counter ≤ c) := by
  induction f generalizing d out d' evs with
  | ret =>
    cases h
    exact ⟨le_rfl, id, by simp⟩
  | pend rest =>
    cases h
    exact ⟨le_rfl, id, by simp⟩
  | spawnThen child rest _ ih =>
    rw [runFut] at h
    obtain ⟨z, hz, hgz⟩ := exceptMap_ok _ _ _ h
    obtain ⟨o2, d2, e2⟩ := z
    obtain ⟨ho, hd, he⟩ : o2 = out ∧ d2 = d' ∧
        (d.add (some s) child).2.2 ++ e2 = evs := by
      refine ⟨?_, ?_, ?_⟩
      · exact (Prod.mk.injEq .. ▸ hgz).1
      · exact ((Prod.mk.injEq .. ▸ (Prod.mk.injEq .. ▸ hgz).2)).1
      · exact ((Prod.mk.injEq .. ▸ (Prod.mk.injEq .. ▸ hgz).2)).2
    subst ho hd
    obtain ⟨hc1, hs1, he1⟩ := ih _ _ _ _ hz
    refine ⟨le_trans (add_counter_le d (some s) child) hc1,
      fun hs => hs1 (add_serialInv d (some s) child hs), ?_⟩
    intro e hme
    rw [← he] at hme
    rcases List.mem_append.1 hme with hm | hm
    · rcases add_events d (some s) child with hev | hev
      · rw [hev] at hm
        cases hm
      · rw [hev] at hm
        rcases List.mem_singleton.1 hm with rfl
        exact ⟨d.counter, rfl, le_rfl⟩
    · obtain ⟨c, hcm, hcge⟩ := he1 e hm
      exact ⟨c, hcm, le_trans (add_counter_le d (some s) child) hcge⟩
  | wakeThen j rest ih =>
    rw [runFut] at h
    rcases hw : d.wake j with e | d2
    · rw [hw] at h
      exact Except.noConfusion h
    · rw [hw] at h
      obtain ⟨hcnt, hser⟩ := wake_counter_serial d d2 j hw
      obtain ⟨hc1, hs1, he1⟩ := ih _ _ _ _ h
      refine ⟨hcnt ▸ hc1, fun hs => hs1 (hser hs), ?_⟩
      intro e hme
      obtain ⟨c, hcm, hcge⟩ := he1 e hme
      exact ⟨c, hcm, hcnt ▸ hcge⟩

/-- Popping a task (clearing its awake flag) preserves the serial
discipline, whatever happens to the ready list. -/
theorem serialInv_popped (d : TasksData) (k : Nat) (t : ATask) (nx : List Nat)
    (hget : slabGet d.nodes k = some t) (h : SerialInv d) :
    SerialInv { d with next := nx,
                       nodes := d.nodes.set k (some { t with awake := false }) } := by
  intro j t' hj
  dsimp only at hj ⊢
  by_cases hjk : j = k
  · subst hjk
    rw [slabGet_set_self _ _ _ (slabGet_lt hget)] at hj
    cases Option.some.inj hj
    exact h j t hget
  · rw [slabGet_set_ne _ _ _ _ hjk] at hj
    exact h j t' hj

/-- Removing a task preserves the serial discipline, whatever happens to
the ready list and future storage. -/
theorem serialInv_removed (d : TasksData) (k : Nat) (nx : List Nat)
    (fu : List (Option Fut)) (h : SerialInv d) :
    SerialInv { d with futs := fu, next := nx, nodes := d.nodes.set k none } := by
  intro j t' hj
  dsimp only at hj ⊢
  by_cases hjk : j = k
  · subst hjk
    rw [slabGet_set_none] at hj
    exact Option.noConfusion hj
  · rw [slabGet_set_ne _ _ _ _ hjk] at hj
    exact h j t' hj

/-- Replacing future storage preserves the serial discipline. -/
theorem serialInv_futs (d : TasksData) (fu : List (Option Fut)) (h : SerialInv d) :
    SerialInv { d with futs := fu } :=
  fun k t hg => h k t hg

/-- Every spawn event in a `process_next` trace carries a serial at or
above the scheduler's counter at entry. -/
theorem processNext_spawn_ge (fuel : Nat) : ∀ d d' tr, processNext fuel d = .ok (d', tr) →
    ∀ p c, Ev.spawned p c ∈ tr → d.counter ≤ c := by
  induction fuel with
  | zero =>
    intro d d' tr h p c hm
    cases h
    cases hm
  | succ fuel ih =>
    intro d d' tr h p c hm
    rcases processNext_succ_inv fuel d d' tr h with ⟨hnx, hd, htr⟩ | hcase | hcase
    · subst htr
      cases hm
    · obtain ⟨k, q, t, f, d2, evs, t2, d4, tr2, hnx, hget, hfut, hrun, hget2, hr,
        hrec, hd, htr⟩ := hcase
      subst htr
      obtain ⟨hc1, _, hevs⟩ := runFut_trace _ _ _ _ _ _ hrun
      have hc1' : d.counter ≤ d2.counter := hc1
      rcases List.mem_append.1 hm with hmm | hmm
      · obtain ⟨c', hce, hcge⟩ := hevs _ hmm
        injection hce with h1 h2
        subst h2
        exact hcge
      · rcases List.mem_cons.1 hmm with hre | hmm2
        · exact Ev.noConfusion hre
        · have h2 : d2.counter ≤ c := ih _ _ _ hrec p c hmm2
          omega
    · obtain ⟨k, q, t, f, f2, d2, evs, d4, tr2, hnx, hget, hfut, hrun,
        hrec, hd, htr⟩ := hcase
      subst htr
      obtain ⟨hc1, _, hevs⟩ := runFut_trace _ _ _ _ _ _ hrun
      have hc1' : d.counter ≤ d2.counter := hc1
      rcases List.mem_append.1 hm with hmm | hmm
      · obtain ⟨c', hce, hcge⟩ := hevs _ hmm
        injection hce with h1 h2
        subst h2
        exact hcge
      · rcases List.mem_cons.1 hmm with hre | hmm2
        · exact Ev.noConfusion hre
        · have h2 : d2.counter ≤ c := ih _ _ _ hrec p c hmm2
          omega

/-- Ordering inside one iteration block of the trace: a spawn performed
during a resume precedes the event closing that resume, which itself
precedes every resume of the spawned task; pushing the block in front of
a trace already satisfying the ordering property keeps it. -/
theorem block_order (evs tr2 : List Ev) (sres : Nat) (bdone : Bool) (dcnt cnt3 : Nat)
    (hser : sres < dcnt)
    (hevs : ∀ e ∈ evs, ∃ c, e = Ev.spawned (some sres) c ∧ dcnt ≤ c)
    (hcnt3 : dcnt ≤ cnt3)
    (hsp2 : ∀ p c, Ev.spawned p c ∈ tr2 → cnt3 ≤ c)
    (hrec : ∀ (i : Nat) (p c : Nat), tr2[i]? = some (Ev.spawned (some p) c) →
      ∃ j : Nat, i < j ∧ (∃ b : Bool, tr2[j]? = some (Ev.resumed p b)) ∧
        ∀ (m : Nat) (b' : Bool), tr2[m]? = some (Ev.resumed c b') → j < m) :
    ∀ (i : Nat) (p c : Nat),
      (evs ++ Ev.resumed sres bdone :: tr2)[i]? = some (Ev.spawned (some p) c) →
      ∃ j : Nat, i < j ∧
        (∃ b : Bool, (evs ++ Ev.resumed sres bdone :: tr2)[j]? = some (Ev.resumed p b)) ∧
        ∀ (m : Nat) (b' : Bool),
          (evs ++ Ev.resumed sres bdone :: tr2)[m]? = some (Ev.resumed c b') →
          j < m := by
  have hlt : ∀ n, n < evs.length →
      (evs ++ Ev.resumed sres bdone :: tr2)[n]? = evs[n]? := by
    intro n hn
    rw [List.getElem?_append, if_pos hn]
  have heq : (evs ++ Ev.resumed sres bdone :: tr2)[evs.length]?
      = some (Ev.resumed sres bdone) := by
    rw [List.getElem?_append, if_neg (by omega)]
    simp
  have hgt : ∀ n, evs.length < n →
      (evs ++ Ev.resumed sres bdone :: tr2)[n]? = tr2[n - evs.length - 1]? := by
    intro n hn
    rw [List.getElem?_append, if_neg (by omega)]
    have hsub : n - evs.length = (n - evs.length - 1) + 1 := by omega
    rw [hsub]
    simp
  intro i p c hi
  rcases Nat.lt_trichotomy i evs.length with hiL | hiL | hiL
  · rw [hlt i hiL] at hi
    obtain ⟨c', hce, hcge⟩ := hevs _ (mem_of_idx _ _ _ hi)
    injection hce with h1 h2
    injection h1 with h1'
    subst h1' h2
    refine ⟨evs.length, hiL, ⟨bdone, heq⟩, ?_⟩
    intro m b' hm
    rcases Nat.lt_trichotomy m evs.length with hmL | hmL | hmL
    · rw [hlt m hmL] at hm
      obtain ⟨c2, hce2, _⟩ := hevs _ (mem_of_idx _ _ _ hm)
      exact Ev.noConfusion hce2
    · subst hmL
      rw [heq] at hm
      injection Option.some.inj hm with h3 h4
      omega
    · exact hmL
  · subst hiL
    rw [heq] at hi
    exact Ev.noConfusion (Option.some.inj hi)
  · rw [hgt i hiL] at hi
    obtain ⟨j2, hij2, ⟨b, hj2⟩, hm2⟩ := hrec _ _ _ hi
    refine ⟨evs.length + 1 + j2, by omega, ⟨b, ?_⟩, ?_⟩
    · rw [hgt (evs.length + 1 + j2) (by omega)]
      have : evs.length + 1 + j2 - evs.length - 1 = j2 := by omega
      rw [this]
      exact hj2
    · intro m b' hm
      rcases Nat.lt_trichotomy m evs.length with hmL | hmL | hmL
      · rw [hlt m hmL] at hm
        obtain ⟨c2, hce2, _⟩ := hevs _ (mem_of_idx _ _ _ hm)
        exact Ev.noConfusion hce2
      · subst hmL
        rw [heq] at hm
        injection Option.some.inj hm with h3 h4
        have hc3 : cnt3 ≤ c := hsp2 _ _ (mem_of_idx _ _ _ hi)
        omega
      · rw [hgt m hmL] at hm
        have := hm2 _ _ hm
        omega

/-- In every successful `process_next` run from a serial-disciplined
state, a task spawned from inside a running continuation is first resumed
only after the event marking the completion of the spawning
continuation's current resume. -/
theorem processNext_spawn_order (fuel : Nat) : ∀ d d' tr, SerialInv d →
    processNext fuel d = .ok (d', tr) →
    ∀ (i : Nat) (p c : Nat), tr[i]? = some (Ev.spawned (some p) c) →
      ∃ j : Nat, i < j ∧ (∃ b : Bool, tr[j]? = some (Ev.resumed p b)) ∧
        ∀ (m : Nat) (b' : Bool), tr[m]? = some (Ev.resumed c b') → j < m := by
  induction fuel with
  | zero =>
    intro d d' tr hinv h
    cases h
    intro i p c hi
    simp at hi
  | succ fuel ih =>
    intro d d' tr hinv h
    rcases processNext_succ_inv fuel d d' tr h with ⟨hnx, hd, htr⟩ | hcase | hcase
    · subst htr
      intro i p c hi
      simp at hi
    · obtain ⟨k, q, t, f, d2, evs, t2, d4, tr2, hnx, hget, hfut, hrun, hget2, hr,
        hrec, hd, htr⟩ := hcase
      subst htr
      have hser : t.serial < d.counter := hinv k t hget
      have hinv1 : SerialInv
          { d with next := (k :: q).filter (fun x => x ≠ k),
                   nodes := d.nodes.set k (some { t with awake := false }) } :=
        serialInv_popped d k t _ hget hinv
      obtain ⟨hc1, hs1, hevs⟩ := runFut_trace _ _ _ _ _ _ hrun
      have hinv2 : SerialInv d2 := hs1 hinv1
      have hinv3 : SerialInv
          { d2 with futs := d2.futs.set k none,
                    next := d2.next.filter (fun x => x ≠ k),
                    nodes := d2.nodes.set k none } :=
        serialInv_removed d2 k _ _ hinv2
      have hc1' : d.counter ≤ d2.counter := hc1
      have hevs' : ∀ e ∈ evs, ∃ c, e = Ev.spawned (some t.serial) c ∧
          d.counter ≤ c := hevs
      have hsp0 := processNext_spawn_ge fuel _ _ _ hrec
      have hsp2 : ∀ p c, Ev.spawned p c ∈ tr2 → d2.counter ≤ c := hsp0
      have hordrec := ih _ _ _ hinv3 hrec
      exact block_order evs tr2 t.serial true d.counter d2.counter hser hevs'
        hc1' hsp2 hordrec
    · obtain ⟨k, q, t, f, f2, d2, evs, d4, tr2, hnx, hget, hfut, hrun,
        hrec, hd, htr⟩ := hcase
      subst htr
      have hser : t.serial < d.counter := hinv k t hget
      have hinv1 : SerialInv
          { d with next := (k :: q).filter (fun x => x ≠ k),
                   nodes := d.nodes.set k (some { t with awake := false }) } :=
        serialInv_popped d k t _ hget hinv
      obtain ⟨hc1, hs1, hevs⟩ := runFut_trace _ _ _ _ _ _ hrun
      have hinv2 : SerialInv d2 := hs1 hinv1
      have hinv3 : SerialInv { d2 with futs := d2.futs.set k (some f2) } :=
        serialInv_futs d2 _ hinv2
      have hc1' : d.counter ≤ d2.counter := hc1
      have hevs' : ∀ e ∈ evs, ∃ c, e = Ev.spawned (some t.serial) c ∧
          d.counter ≤ c := hevs
      have hsp0 := processNext_spawn_ge fuel _ _ _ hrec
      have hsp2 : ∀ p c, Ev.spawned p c ∈ tr2 → d2.counter ≤ c := hsp0
      have hordrec := ih _ _ _ hinv3 hrec
      exact block_order evs tr2 t.serial false d.counter d2.counter hser hevs'
        hc1' hsp2 hordrec

/-- C5: a successful spawn allocates the task in the slab with its awake
flag set and a fresh wake handle, enqueues its identity at the back of
the Ready List, stores the continuation, and returns having emitted only
the spawn event — no resume; and in every run of the scheduler loop from
a serial-disciplined state, a task spawned from inside a running
continuation is first resumed only strictly after the completion event of
the spawning continuation's current resume. -/
theorem spawn_ready_without_resume (d0 : TasksData) (parent : Option Nat) (f : Fut)
    (h1 : slabLen d0.nodes ≠ d0.nodes.length)
    (h2 : d0.futs.length = d0.nodes.length) :
    (∃ k : Nat, (d0.add parent f).1 = .ok k ∧
      (d0.add parent f).2.1.next = d0.next ++ [k] ∧
      slabGet (d0.add parent f).2.1.nodes k = some ⟨d0.counter, 1, true⟩ ∧
      slabGet (d0.add parent f).2.1.futs k = some f ∧
      (d0.add parent f).2.2 = [Ev.spawned parent d0.counter]) ∧
    (∀ fuel d d' tr, SerialInv d → processNext fuel d = .ok (d', tr) →
      ∀ (i p c : Nat), tr[i]? = some (Ev.spawned (some p) c) →
        ∃ j : Nat, i < j ∧ (∃ b : Bool, tr[j]? = some (Ev.resumed p b)) ∧
          ∀ (m : Nat) (b' : Bool), tr[m]? = some (Ev.resumed c b') → j < m) := by
  constructor
  · obtain ⟨hvlt, hvnone⟩ := vacant_spot d0.nodes h1
    rw [TasksData.add, if_neg h1]
    refine ⟨vacantKey d0.nodes, rfl, rfl, ?_, ?_, rfl⟩
    · exact slabGet_set_self _ _ _ hvlt
    · exact slabGet_set_self _ _ _ (h2 ▸ hvlt)
  · exact fun fuel d d' tr hs hp => processNext_spawn_order fuel d d' tr hs hp

/-- Witness for C5 at a concrete non-full state. -/
theorem spawn_ready_without_resume_witness :
    (∃ k : Nat, (exOneSuspended.add none Fut.ret).1 = .ok k ∧
      (exOneSuspended.add none Fut.ret).2.1.next = exOneSuspended.next ++ [k] ∧
      slabGet (exOneSuspended.add none Fut.ret).2.1.nodes k
        = some ⟨exOneSuspended.counter, 1, true⟩ ∧
      slabGet (exOneSuspended.add none Fut.ret).2.1.futs k = some Fut.ret ∧
      (exOneSuspended.add none Fut.ret).2.2
        = [Ev.spawned none exOneSuspended.counter]) ∧
    (∀ fuel d d' tr, SerialInv d → processNext fuel d = .ok (d', tr) →
      ∀ (i p c : Nat), tr[i]? = some (Ev.spawned (some p) c) →
        ∃ j : Nat, i < j ∧ (∃ b : Bool, tr[j]? = some (Ev.resumed p b)) ∧
          ∀ (m : Nat) (b' : Bool), tr[m]? = some (Ev.resumed c b') → j < m) :=
  spawn_ready_without_resume exOneSuspended none Fut.ret (by decide) (by decide)

/-- `frontOf a b`: the list `a` is an initial segment of `b`. -/
def frontOf (a b : List Nat) : Prop :=
  ∃ r, b = a ++ r

/-- Two initial segments of the same list are comparable. -/
theorem frontOf_comparable (a b c : List Nat) (ha : frontOf a c) (hb : frontOf b c) :
    frontOf a b ∨ frontOf b a := by
  obtain ⟨r1, hr1⟩ := ha
  obtain ⟨r2, hr2⟩ := hb
  have hta : c.take a.length = a := by rw [hr1]; exact List.take_left a r1
  have htb : c.take b.length = b := by rw [hr2]; exact List.take_left b r2
  rcases Nat.le_total a.length b.length with hle | hle
  · left
    have : b.take a.length = a := by
      rw [← htb, List.take_take, Nat.min_eq_left hle, hta]
    refine ⟨b.drop a.length, ?_⟩
    conv_lhs => rw [← List.take_append_drop a.length b]
    rw [this]
  · right
    have : a.take b.length = b := by
      rw [← hta, List.take_take, Nat.min_eq_left hle, htb]
    refine ⟨a.drop b.length, ?_⟩
    conv_lhs => rw [← List.take_append_drop b.length a]
    rw [this]

/-- Prepending the same head preserves the initial-segment relation. -/
theorem frontOf_cons (x : Nat) (a b : List Nat) (h : frontOf a b) :
    frontOf (x :: a) (x :: b) := by
  obtain ⟨r, hr⟩ := h
  exact ⟨r, by rw [hr]; rfl⟩

/-- A trace of spawn events contains no resume serials. -/
theorem resumedSerials_of_spawns (evs : List Ev) (s : Nat)
    (h : ∀ e ∈ evs, ∃ c, e = Ev.spawned (some s) c ∧ True) :
    resumedSerials evs = [] := by
  rw [resumedSerials]
  apply List.filterMap_eq_nil.2
  intro e he
  obtain ⟨c, hc, _⟩ := h e he
  subst hc
  rfl

/-- The queue-shape invariant of the scheduler: ready-list entries are
distinct and every queued task is live and awake. -/
def WFq (d : TasksData) : Prop :=
  d.next.Nodup ∧ ∀ j ∈ d.next, ∃ t, slabGet d.nodes j = some t ∧ t.awake = true

/-- `Tasks::add` preserves the queue invariant and only appends. -/
theorem add_wfq (d : TasksData) (p : Option Nat) (f : Fut) (hwf : WFq d) :
    WFq (d.add p f).2.1 ∧ ∃ app, (d.add p f).2.1.next = d.next ++ app := by
  rw [TasksData.add]
  split
  · exact ⟨hwf, [], by simp⟩
  · rename_i hnotfull
    obtain ⟨hvlt, hvnone⟩ := vacant_spot d.nodes hnotfull
    dsimp only
    have hknot : vacantKey d.nodes ∉ d.next := by
      intro hmem
      obtain ⟨t, hget, _⟩ := hwf.2 _ hmem
      rw [hvnone] at hget
      exact Option.noConfusion hget
    refine ⟨⟨?_, ?_⟩, [vacantKey d.nodes], rfl⟩
    · simp [List.nodup_append, hwf.1, hknot]
    · intro j hj
      rcases List.mem_append.1 hj with hjm | hjm
      · obtain ⟨t, hget, hawake⟩ := hwf.2 j hjm
        have hne : j ≠ vacantKey d.nodes := fun he => hknot (he ▸ hjm)
        exact ⟨t, by rw [slabGet_set_ne _ _ _ _ hne]; exact hget, hawake⟩
      · rcases List.mem_singleton.1 hjm with rfl
        exact ⟨⟨d.counter, 1, true⟩, slabGet_set_self _ _ _ hvlt, rfl⟩

/-- `Tasks::wake` preserves the queue invariant and only appends to the
back of the ready list. -/
theorem wake_wfq (d d2 : TasksData) (j : Nat) (h : d.wake j = .ok d2) (hwf : WFq d) :
    WFq d2 ∧ ∃ app, d2.next = d.next ++ app := by
  rw [TasksData.wake] at h
  rcases hg : slabGet d.nodes j with _ | t
  · rw [hg] at h
    exact Except.noConfusion h
  · rw [hg] at h
    dsimp only at h
    by_cases ha : t.awake = true
    · rw [if_pos ha] at h
      cases Except.ok.inj h
      exact ⟨hwf, [], by simp⟩
    · rw [if_neg ha] at h
      cases Except.ok.inj h
      have hjnot : j ∉ d.next := by
        intro hmem
        obtain ⟨t', hget', hawake'⟩ := hwf.2 j hmem
        rw [hg] at hget'
        cases Option.some.inj hget'
        exact ha hawake'
      have hfix : d.next.filter (fun x => x ≠ j) = d.next :=
        List.filter_eq_self.2 (fun a hmem => by
          simp only [decide_eq_true_eq]
          exact fun he => hjnot (he ▸ hmem))
      refine ⟨⟨?_, ?_⟩, [j], by dsimp only; rw [hfix]⟩
      · dsimp only
        rw [hfix]
        simp [List.nodup_append, hwf.1, hjnot]
      · intro x hx
        dsimp only at hx ⊢
        rw [hfix] at hx
        rcases List.mem_append.1 hx with hxm | hxm
        · obtain ⟨t', hget', hawake'⟩ := hwf.2 x hxm
          have hne : x ≠ j := fun he => hjnot (he ▸ hxm)
          exact ⟨t', by rw [slabGet_set_ne _ _ _ _ hne]; exact hget', hawake'⟩
        · rcases List.mem_singleton.1 hxm with rfl
          exact ⟨{ t with awake := true }, slabGet_set_self _ _ _ (slabGet_lt hg), rfl⟩

/-- A resume preserves the queue invariant and only appends to the ready
list. -/
theorem runFut_wf_append (f : Fut) (s : Nat) : ∀ (d : TasksData) (out : Option Fut)
    (d' : TasksData) (evs : List Ev),
    runFut f s d = .ok (out, d', evs) → WFq d →
    WFq d' ∧ ∃ app, d'.next = d.next ++ app := by
  induction f with
  | ret =>
    intro d out d' evs h hwf
    cases h
    exact ⟨hwf, [], by simp⟩
  | pend rest =>
    intro d out d' evs h hwf
    cases h
    exact ⟨hwf, [], by simp⟩
  | spawnThen child rest _ ih =>
    intro d out d' evs h hwf
    rw [runFut] at h
    obtain ⟨z, hz, hgz⟩ := exceptMap_ok _ _ _ h
    obtain ⟨o2, d2, e2⟩ := z
    have hd : d2 = d' := ((Prod.mk.injEq .. ▸ (Prod.mk.injEq .. ▸ hgz).2)).1
    subst hd
    obtain ⟨hwf1, app0, happ0⟩ := add_wfq d (some s) child hwf
    obtain ⟨hwf2, app1, happ1⟩ := ih _ _ _ _ hz hwf1
    exact ⟨hwf2, app0 ++ app1, by rw [happ1, happ0, List.append_assoc]⟩
  | wakeThen j rest ih =>
    intro d out d' evs h hwf
    rw [runFut] at h
    rcases hw : d.wake j with e | d2
    · rw [hw] at h
      exact Except.noConfusion h
    · rw [hw] at h
      obtain ⟨hwf1, app0, happ0⟩ := wake_wfq d d2 j hw hwf
      obtain ⟨hwf2, app1, happ1⟩ := ih _ _ _ _ h hwf1
      exact ⟨hwf2, app0 ++ app1, by rw [happ1, happ0, List.append_assoc]⟩

/-- The initial-segment relation is transitive. -/
theorem frontOf_trans (a b c : List Nat) (hab : frontOf a b) (hbc : frontOf b c) :
    frontOf a c := by
  obtain ⟨r1, hr1⟩ := hab
  obtain ⟨r2, hr2⟩ := hbc
  exact ⟨r1 ++ r2, by rw [hr2, hr1, List.append_assoc]⟩

/-- `Tasks::add` leaves every live slot untouched. -/
theorem add_serial_keep (d : TasksData) (p : Option Nat) (f : Fut) (j : Nat) (t : ATask)
    (hget : slabGet d.nodes j = some t) :
    slabGet (d.add p f).2.1.nodes j = some t := by
  rw [TasksData.add]
  split
  · exact hget
  · rename_i hnotfull
    obtain ⟨hvlt, hvnone⟩ := vacant_spot d.nodes hnotfull
    dsimp only
    have hne : j ≠ vacantKey d.nodes := by
      intro he
      rw [he, hvnone] at hget
      exact Option.noConfusion hget
    rw [slabGet_set_ne _ _ _ _ hne]
    exact hget

/-- `Tasks::wake` keeps every live task live with its serial. -/
theorem wake_serial_keep (d d2 : TasksData) (jj j : Nat) (t : ATask)
    (h : d.wake jj = .ok d2) (hget : slabGet d.nodes j = some t) :
    ∃ t', slabGet d2.nodes j = some t' ∧ t'.serial = t.serial := by
  rw [TasksData.wake] at h
  rcases hg : slabGet d.nodes jj with _ | tj
  · rw [hg] at h
    exact Except.noConfusion h
  · rw [hg] at h
    dsimp only at h
    by_cases ha : tj.awake = true
    · rw [if_pos ha] at h
      cases Except.ok.inj h
      exact ⟨t, hget, rfl⟩
    · rw [if_neg ha] at h
      cases Except.ok.inj h
      by_cases hjj : j = jj
      · subst hjj
        rw [hget] at hg
        cases Option.some.inj hg
        exact ⟨{ t with awake := true }, slabGet_set_self _ _ _ (slabGet_lt hget), rfl⟩
      · exact ⟨t, by dsimp only; rw [slabGet_set_ne _ _ _ _ hjj]; exact hget, rfl⟩

/-- A resume keeps every live task live with its serial. -/
theorem runFut_serial_keep (f : Fut) (s : Nat) : ∀ (d : TasksData) (out : Option Fut)
    (d' : TasksData) (evs : List Ev), runFut f s d = .ok (out, d', evs) →
    ∀ (j : Nat) (t : ATask), slabGet d.nodes j = some t →
      ∃ t', slabGet d'.nodes j = some t' ∧ t'.serial = t.serial := by
  induction f with
  | ret =>
    intro d out d' evs h j t hget
    cases h
    exact ⟨t, hget, rfl⟩
  | pend rest =>
    intro d out d' evs h j t hget
    cases h
    exact ⟨t, hget, rfl⟩
  | spawnThen child rest _ ih =>
    intro d out d' evs h j t hget
    rw [runFut] at h
    obtain ⟨z, hz, hgz⟩ := exceptMap_ok _ _ _ h
    obtain ⟨o2, d2, e2⟩ := z
    have hd : d2 = d' := ((Prod.mk.injEq .. ▸ (Prod.mk.injEq .. ▸ hgz).2)).1
    subst hd
    exact ih _ _ _ _ hz j t (add_serial_keep d (some s) child j t hget)
  | wakeThen jj rest ih =>
    intro d out d' evs h j t hget
    rw [runFut] at h
    rcases hw : d.wake jj with e | d2
    · rw [hw] at h
      exact Except.noConfusion h
    · rw [hw] at h
      obtain ⟨t1, hget1, hser1⟩ := wake_serial_keep d d2 jj j t hw hget
      obtain ⟨t2, hget2, hser2⟩ := ih _ _ _ _ h j t1 hget1
      exact ⟨t2, hget2, hser2.trans hser1⟩

/-- Scheduler states with equal slab lookups give equal ghost serials. -/
theorem serialAt_congr (a b : TasksData) (j : Nat)
    (h : slabGet a.nodes j = slabGet b.nodes j) : serialAt a j = serialAt b j := by
  rw [serialAt, serialAt, h]

/-- The scheduler state after removing a completed task `k`. -/
abbrev doneState (d2 : TasksData) (k : Nat) : TasksData :=
  { d2 with futs := d2.futs.set k none,
            next := d2.next.filter (fun x => x ≠ k),
            nodes := d2.nodes.set k none }

/-- The scheduler state after storing back a suspended task's future. -/
abbrev pendState (d2 : TasksData) (k : Nat) (f2 : Fut) : TasksData :=
  { d2 with futs := d2.futs.set k (some f2) }

/-- FIFO discipline of the run loop: the serials resumed by
`process_next` and the ready list at entry agree as far as both extend —
the loop pops the front and resumes strictly in ready-list order, with
newly woken or spawned tasks only ever appended behind. -/
theorem processNext_fifo (fuel : Nat) : ∀ d d' tr, WFq d →
    processNext fuel d = .ok (d', tr) →
    frontOf (resumedSerials tr) (d.next.map (serialAt d)) ∨
    frontOf (d.next.map (serialAt d)) (resumedSerials tr) := by
  induction fuel with
  | zero =>
    intro d d' tr hwf h
    cases h
    left
    refine ⟨d.next.map (serialAt d), ?_⟩
    simp [resumedSerials]
  | succ fuel ih =>
    intro d d' tr hwf h
    rcases processNext_succ_inv fuel d d' tr h with ⟨hnx, hd, htr⟩ | hcase | hcase
    · subst htr
      left
      refine ⟨d.next.map (serialAt d), ?_⟩
      simp [resumedSerials]
    · obtain ⟨k, q, t, f, d2, evs, t2, d4, tr2, hnx, hget, hfut, hrun, hget2, hr,
        hrec, hd, htr⟩ := hcase
      subst htr
      have hnd : (k :: q).Nodup := hnx ▸ hwf.1
      have hknotq : k ∉ q := (List.nodup_cons.1 hnd).1
      have hnotq : ∀ x ∈ q, x ≠ k := fun x hx he => hknotq (he ▸ hx)
      have hfix : (k :: q).filter (fun x => x ≠ k) = q := filter_ne_of_head k q hnotq
      have hwf1 : WFq { d with next := (k :: q).filter (fun x => x ≠ k),
                               nodes := d.nodes.set k (some { t with awake := false }) } := by
        constructor
        · show ((k :: q).filter (fun x => x ≠ k)).Nodup
          rw [hfix]
          exact (List.nodup_cons.1 hnd).2
        · intro j hj
          replace hj : j ∈ (k :: q).filter (fun x => x ≠ k) := hj
          rw [hfix] at hj
          have hne : j ≠ k := hnotq j hj
          obtain ⟨t', hg', ha'⟩ := hwf.2 j (hnx ▸ List.mem_cons.2 (Or.inr hj))
          refine ⟨t', ?_, ha'⟩
          show slabGet (d.nodes.set k (some { t with awake := false })) j = some t'
          rw [slabGet_set_ne _ _ _ _ hne]
          exact hg'
      obtain ⟨hwf2, app, happ⟩ := runFut_wf_append f t.serial _ _ _ _ hrun hwf1
      have happ2 : d2.next = q ++ app := by
        rw [happ]
        show (k :: q).filter (fun x => x ≠ k) ++ app = q ++ app
        rw [hfix]
      have hser2 : ∀ j ∈ q, serialAt d2 j = serialAt d j := by
        intro j hj
        obtain ⟨tj, hgetj, _⟩ := hwf.2 j (hnx ▸ List.mem_cons.2 (Or.inr hj))
        have hne : j ≠ k := hnotq j hj
        have hget1 : slabGet (d.nodes.set k (some { t with awake := false })) j
            = some tj := by
          rw [slabGet_set_ne _ _ _ _ hne]
          exact hgetj
        obtain ⟨tj', hget2x, hserj⟩ := runFut_serial_keep f t.serial _ _ _ _ hrun j tj hget1
        simp only [serialAt, hget2x, hgetj]
        exact hserj
      obtain ⟨hc1, hs1, hevs⟩ := runFut_trace _ _ _ _ _ _ hrun
      have hresumes : resumedSerials (evs ++ Ev.resumed t.serial true :: tr2)
          = t.serial :: resumedSerials tr2 := by
        rw [resumedSerials, List.filterMap_append]
        have h0 := resumedSerials_of_spawns evs t.serial
          (fun e he => (let ⟨c, hc, _⟩ := hevs e he; ⟨c, hc, trivial⟩))
        rw [resumedSerials] at h0
        rw [h0]
        rfl
      have hheadser : serialAt d k = t.serial := by
        rw [serialAt, hget]
      have hwf3 : WFq (doneState d2 k) := by
        constructor
        · show (d2.next.filter (fun x => x ≠ k)).Nodup
          exact hwf2.1.filter _
        · intro j hj
          replace hj : j ∈ d2.next.filter (fun x => x ≠ k) := hj
          have hjm := List.mem_filter.1 hj
          have hne : j ≠ k := by simpa using hjm.2
          obtain ⟨t', hg', ha'⟩ := hwf2.2 j hjm.1
          refine ⟨t', ?_, ha'⟩
          show slabGet (d2.nodes.set k none) j = some t'
          rw [slabGet_set_ne _ _ _ _ hne]
          exact hg'
      have hnext3 : (doneState d2 k).next = q ++ app.filter (fun x => x ≠ k) := by
        show d2.next.filter (fun x => x ≠ k) = _
        rw [happ2, List.filter_append]
        congr 1
        exact List.filter_eq_self.2 (fun a ha => by simpa using hnotq a ha)
      have hmapq : q.map (serialAt (doneState d2 k)) = q.map (serialAt d) := by
        apply List.map_congr_left
        intro j hj
        have hne : j ≠ k := hnotq j hj
        have hstep : serialAt (doneState d2 k) j = serialAt d2 j := by
          apply serialAt_congr
          show slabGet (d2.nodes.set k none) j = slabGet d2.nodes j
          rw [slabGet_set_ne _ _ _ _ hne]
        rw [hstep]
        exact hser2 j hj
      have hM3 : (doneState d2 k).next.map (serialAt (doneState d2 k))
          = q.map (serialAt d)
            ++ (app.filter (fun x => x ≠ k)).map (serialAt (doneState d2 k)) := by
        rw [hnext3, List.map_append, hmapq]
      rw [hresumes, hnx, List.map_cons, hheadser]
      rcases ih _ _ _ hwf3 hrec with hA | hB
      · rw [hM3] at hA
        have hqm : frontOf (q.map (serialAt d)) (q.map (serialAt d) ++
            (app.filter (fun x => x ≠ k)).map (serialAt (doneState d2 k))) := ⟨_, rfl⟩
        rcases frontOf_comparable _ _ _ hA hqm with hx | hx
        · left
          exact frontOf_cons _ _ _ hx
        · right
          exact frontOf_cons _ _ _ hx
      · rw [hM3] at hB
        right
        exact frontOf_cons _ _ _ (frontOf_trans _ _ _ ⟨_, rfl⟩ hB)
    · obtain ⟨k, q, t, f, f2, d2, evs, d4, tr2, hnx, hget, hfut, hrun,
        hrec, hd, htr⟩ := hcase
      subst htr
      have hnd : (k :: q).Nodup := hnx ▸ hwf.1
      have hknotq : k ∉ q := (List.nodup_cons.1 hnd).1
      have hnotq : ∀ x ∈ q, x ≠ k := fun x hx he => hknotq (he ▸ hx)
      have hfix : (k :: q).filter (fun x => x ≠ k) = q := filter_ne_of_head k q hnotq
      have hwf1 : WFq { d with next := (k :: q).filter (fun x => x ≠ k),
                               nodes := d.nodes.set k (some { t with awake := false }) } := by
        constructor
        · show ((k :: q).filter (fun x => x ≠ k)).Nodup
          rw [hfix]
          exact (List.nodup_cons.1 hnd).2
        · intro j hj
          replace hj : j ∈ (k :: q).filter (fun x => x ≠ k) := hj
          rw [hfix] at hj
          have hne : j ≠ k := hnotq j hj
          obtain ⟨t', hg', ha'⟩ := hwf.2 j (hnx ▸ List.mem_cons.2 (Or.inr hj))
          refine ⟨t', ?_, ha'⟩
          show slabGet (d.nodes.set k (some { t with awake := false })) j = some t'
          rw [slabGet_set_ne _ _ _ _ hne]
          exact hg'
      obtain ⟨hwf2, app, happ⟩ := runFut_wf_append f t.serial _ _ _ _ hrun hwf1
      have happ2 : d2.next = q ++ app := by
        rw [happ]
        show (k :: q).filter (fun x => x ≠ k) ++ app = q ++ app
        rw [hfix]
      have hser2 : ∀ j ∈ q, serialAt d2 j = serialAt d j := by
        intro j hj
        obtain ⟨tj, hgetj, _⟩ := hwf.2 j (hnx ▸ List.mem_cons.2 (Or.inr hj))
        have hne : j ≠ k := hnotq j hj
        have hget1 : slabGet (d.nodes.set k (some { t with awake := false })) j
            = some tj := by
          rw [slabGet_set_ne _ _ _ _ hne]
          exact hgetj
        obtain ⟨tj', hget2x, hserj⟩ := runFut_serial_keep f t.serial _ _ _ _ hrun j tj hget1
        simp only [serialAt, hget2x, hgetj]
        exact hserj
      obtain ⟨hc1, hs1, hevs⟩ := runFut_trace _ _ _ _ _ _ hrun
      have hresumes : resumedSerials (evs ++ Ev.resumed t.serial false :: tr2)
          = t.serial :: resumedSerials tr2 := by
        rw [resumedSerials, List.filterMap_append]
        have h0 := resumedSerials_of_spawns evs t.serial
          (fun e he => (let ⟨c, hc, _⟩ := hevs e he; ⟨c, hc, trivial⟩))
        rw [resumedSerials] at h0
        rw [h0]
        rfl
      have hheadser : serialAt d k = t.serial := by
        rw [serialAt, hget]
      have hwf3 : WFq (pendState d2 k f2) := hwf2
      have hmapq : q.map (serialAt (pendState d2 k f2)) = q.map (serialAt d) := by
        apply List.map_congr_left
        intro j hj
        have hstep : serialAt (pendState d2 k f2) j = serialAt d2 j :=
          serialAt_congr _ _ j rfl
        rw [hstep]
        exact hser2 j hj
      have hM3 : (pendState d2 k f2).next.map (serialAt (pendState d2 k f2))
          = q.map (serialAt d) ++ app.map (serialAt (pendState d2 k f2)) := by
        show d2.next.map _ = _
        rw [happ2, List.map_append, hmapq]
      rw [hresumes, hnx, List.map_cons, hheadser]
      rcases ih _ _ _ hwf3 hrec with hA | hB
      · rw [hM3] at hA
        have hqm : frontOf (q.map (serialAt d)) (q.map (serialAt d) ++
            app.map (serialAt (pendState d2 k f2))) := ⟨_, rfl⟩
        rcases frontOf_comparable _ _ _ hA hqm with hx | hx
        · left
          exact frontOf_cons _ _ _ hx
        · right
          exact frontOf_cons _ _ _ hx
      · rw [hM3] at hB
        right
        exact frontOf_cons _ _ _ (frontOf_trans _ _ _ ⟨_, rfl⟩ hB)

/-- A two-ready-task scheduler state used as a concrete example. -/
def exTwoReady : TasksData :=
  { nodes := [some ⟨0, 1, true⟩, some ⟨1, 1, true⟩], next := [0, 1],
    futs := [some .ret, some .ret], counter := 2 }

/-- C8: tasks are resumed in the order they became ready — the run loop
consumes the FIFO Ready List strictly from the front (the resumed serials
and the entry ready list agree as far as both extend, additions only ever
going behind), and `Tasks::wake` appends the newly ready identity at the
back of the list, with no other priority. -/
theorem ready_fifo_order (d : TasksData) (fuel : Nat) (d' : TasksData) (tr : List Ev)
    (hwf : WFq d) (h : processNext fuel d = .ok (d', tr)) :
    (frontOf (resumedSerials tr) (d.next.map (serialAt d)) ∨
     frontOf (d.next.map (serialAt d)) (resumedSerials tr)) ∧
    (∀ (e : TasksData) (j : Nat) (t : ATask), slabGet e.nodes j = some t →
      t.awake = false →
      e.wake j = .ok { e with nodes := e.nodes.set j (some { t with awake := true }),
                              next := e.next.filter (fun x => x ≠ j) ++ [j] }) := by
  constructor
  · exact processNext_fifo fuel d d' tr hwf h
  · intro e j t hget hawake
    rw [TasksData.wake, hget]
    simp [hawake]

/-- Witness for C8 at a concrete two-task state: both tasks are resumed,
in ready-list order. -/
theorem ready_fifo_order_witness :
    (frontOf (resumedSerials [Ev.resumed 0 true, Ev.resumed 1 true])
       (exTwoReady.next.map (serialAt exTwoReady)) ∨
     frontOf (exTwoReady.next.map (serialAt exTwoReady))
       (resumedSerials [Ev.resumed 0 true, Ev.resumed 1 true])) ∧
    (∀ (e : TasksData) (j : Nat) (t : ATask), slabGet e.nodes j = some t →
      t.awake = false →
      e.wake j = .ok { e with nodes := e.nodes.set j (some { t with awake := true }),
                              next := e.next.filter (fun x => x ≠ j) ++ [j] }) := by
  refine ready_fifo_order exTwoReady 2
    { nodes := [none, none], next := [], futs := [none, none], counter := 2 }
    [Ev.resumed 0 true, Ev.resumed 1 true] ⟨by decide, ?_⟩ (by rfl)
  intro j hj
  have hj01 : j = 0 ∨ j = 1 := by simpa [exTwoReady] using hj
  rcases hj01 with rfl | rfl
  · exact ⟨⟨0, 1, true⟩, rfl, rfl⟩
  · exact ⟨⟨1, 1, true⟩, rfl, rfl⟩
